import Mathlib

/-!
Verification development for the DRF-CB simulator
(`data_model.py`, `event_types.py`, `drf_scheduler.py`).

The embedding choices:

* Resource vectors (`numpy` arrays of a fixed dimension `D`) become
  functions `Fin D → ℚ`.  All vectors of one simulation share the
  dimension, as the spec requires.  Rationals stand in for IEEE doubles;
  in `ℚ` division by zero yields `0`, which coincides with the source's
  explicit replacement of `inf`/`nan` by `0`.  We still write that
  replacement out (`if R i = 0 then 0 else U i / R i`) to mirror the
  source text.
* Python `dict`s (insertion ordered) become association lists
  `List (Nat × α)`; insertion of a fresh key appends, deletion removes
  the entry, iteration over `.values()` is `map Prod.snd`.
* `heapq` with the total order `(time, priority, counter)` is modelled
  by keeping the events in a plain list and popping the least element
  under that order: for a total strict order this is exactly the
  observable behaviour of a binary heap.
* Python's stable `sort` is modelled by `List.insertionSort` with a
  non-strict comparison on the key, which is stable; a stable ascending
  sort is unique as a function, so this is observationally faithful.
* Exceptions that the source does not catch (`KeyError`, the
  `ValueError` escaping `Node.add_task` inside the scheduler cycle)
  abort the simulation; fallible steps therefore return `Option`,
  `none` meaning a crash.  The `ValueError` that
  `handle_task_finish_event` catches is modelled by returning the
  unchanged state, since `Node.remove_task` raises before mutating.
* The unbounded `while` loops (`run_scheduler_cycle`, `run`) take
  explicit fuel.
-/

namespace DRF

/-- Resource vectors: `numpy` arrays of fixed dimension `D`. -/
def V (D : Nat) : Type := Fin D → ℚ

namespace V

variable {D : Nat}

instance : DecidableEq (V D) := fun u v =>
  decidable_of_iff (∀ i, u i = v i) ⟨funext, fun h i => congrFun h i⟩

/-- Elementwise addition (`numpy +`). -/
def add (u v : V D) : V D := fun i => u i + v i

/-- Elementwise subtraction (`numpy -`). -/
def sub (u v : V D) : V D := fun i => u i - v i

/-- The zero vector (`np.zeros_like`). -/
def zero : V D := fun _ => 0

/-- Componentwise comparison (`np.all(u <= v)`). -/
def le (u v : V D) : Prop := ∀ i, u i ≤ v i

instance : DecidablePred fun p : V D × V D => le p.1 p.2 := fun _ =>
  inferInstanceAs (Decidable (∀ _, _ ≤ _))

instance (u v : V D) : Decidable (le u v) :=
  inferInstanceAs (Decidable (∀ _, _ ≤ _))

end V

/-- Maximum of a list of rationals, `0` on the empty list: exactly
`np.max(shares) if shares.size > 0 else 0.0`. -/
def listMax : List ℚ → ℚ
  | [] => 0
  | x :: xs => xs.foldl max x

/-- Statuses of a task (`TaskStatus` in `data_model.py`). -/
inductive TaskStatus where
  | PENDING
  | RUNNING
  | FINISHED
deriving DecidableEq, Repr

/-- A task (`Task` in `data_model.py`). -/
structure Task (D : Nat) where
  id : Nat
  app_id : Nat
  requirements : V D
  duration : ℚ
  status : TaskStatus := .PENDING
  start_time : ℚ := -1
  node_id : Int := -1
deriving DecidableEq

/-- Elapsed running time of a task (`Task.elapsed_time`). -/
def Task.elapsed_time {D : Nat} (t : Task D) (current_time : ℚ) : ℚ :=
  if t.status = .RUNNING ∧ 0 ≤ t.start_time then current_time - t.start_time
  else 0

/-- Insertion-ordered dictionary keyed by `Nat`, the model of a Python
`dict`. -/
abbrev Dict (α : Type) : Type := List (Nat × α)

namespace Dict

variable {α : Type}

/-- Membership test (`k in d`). -/
def contains (d : Dict α) (k : Nat) : Bool := d.any fun p => p.1 == k

/-- Lookup (`d[k]`), `none` when absent (a `KeyError` in Python). -/
def find? (d : Dict α) (k : Nat) : Option α :=
  (List.find? (fun p => p.1 == k) d).map Prod.snd

/-- Update or insert (`d[k] = v`): an existing key keeps its position,
a fresh key is appended, matching Python dict insertion order. -/
def insert (d : Dict α) (k : Nat) (v : α) : Dict α :=
  if contains d k then d.map fun p => if p.1 = k then (k, v) else p
  else d ++ [(k, v)]

/-- Deletion (`del d[k]`). -/
def erase (d : Dict α) (k : Nat) : Dict α :=
  d.filter fun p => ¬ p.1 = k

/-- Iteration over values (`d.values()`), in insertion order. -/
def values (d : Dict α) : List α := d.map Prod.snd

end Dict

/-- Replace the first element satisfying `p` by `a`: the functional
image of mutating, through a reference, an object stored in a list. -/
def replaceFirst {α : Type} (p : α → Bool) (a : α) : List α → List α
  | [] => []
  | b :: bs => if p b then a :: bs else b :: replaceFirst p a bs

/-- An application (`Application` in `data_model.py`). -/
structure Application (D : Nat) where
  id : Nat
  proto_requirements : V D
  proto_duration : ℚ
  pending_tasks : List (Task D) := []
  running_tasks : Dict (Task D) := []
  U_i : V D := V.zero
  s_i : ℚ := 0
deriving DecidableEq

/-- Recompute an application's dominant share
(`Application.update_dominant_share`): `shares = U_i / R_total` with
non-finite entries (`x/0`, `0/0`) replaced by `0`, then the maximum
component, or `0` for dimension `0`. -/
def Application.update_dominant_share {D : Nat} (a : Application D)
    (total_cluster_resources : V D) : Application D :=
  let shares := (List.finRange D).map fun i =>
    if total_cluster_resources i = 0 then 0 else a.U_i i / total_cluster_resources i
  { a with s_i := listMax shares }

/-- A node (`Node` in `data_model.py`). -/
structure Node (D : Nat) where
  id : Nat
  R_k : V D
  C_k : V D := V.zero
  running_tasks : Dict (Task D) := []
deriving DecidableEq

namespace Node

variable {D : Nat}

/-- Whether a task fits (`Node.can_fit`): `C_k + req ≤ R_k`
componentwise. -/
def can_fit (n : Node D) (task_req : V D) : Prop :=
  V.le (V.add n.C_k task_req) n.R_k

instance (n : Node D) (r : V D) : Decidable (n.can_fit r) :=
  inferInstanceAs (Decidable (V.le _ _))

/-- Add a task (`Node.add_task`); `none` models the `ValueError` raised
when the task does not fit. -/
def add_task (n : Node D) (t : Task D) : Option (Node D) :=
  if n.can_fit t.requirements then
    some { n with C_k := V.add n.C_k t.requirements,
                  running_tasks := n.running_tasks.insert t.id t }
  else none

/-- Remove a task (`Node.remove_task`); `none` models the `ValueError`
raised when the task is not on the node.  The source checks membership
before mutating anything. -/
def remove_task (n : Node D) (t : Task D) : Option (Node D) :=
  if n.running_tasks.contains t.id then
    some { n with C_k := V.sub n.C_k t.requirements,
                  running_tasks := n.running_tasks.erase t.id }
  else none

end Node

/-- Payloads of the three event kinds (`event_types.py`). -/
inductive EventPayload where
  | submit (app_id num_tasks : Nat)
  | taskFinish (task_id app_id node_id : Nat)
  | schedulerRun (allocation_made : Bool)
deriving DecidableEq

/-- A simulation event (`SimEvent`): firing time, priority
(Submit/TaskFinish = 1, SchedulerRun = 2), unique insertion counter,
payload. -/
structure SimEvent where
  time : ℚ
  priority : Nat
  counter : Nat
  payload : EventPayload
deriving DecidableEq

/-- The comparison `SimEvent.__lt__`: lexicographic on
`(time, priority, counter)`; the payload is never compared. -/
def eventLT (e e' : SimEvent) : Prop :=
  if e.time ≠ e'.time then e.time < e'.time
  else if e.priority ≠ e'.priority then e.priority < e'.priority
  else e.counter < e'.counter

instance (e e' : SimEvent) : Decidable (eventLT e e') := by
  unfold eventLT; infer_instance

/-- The ordering triple of an event. -/
def tripleOf (e : SimEvent) : ℚ × Nat × Nat := (e.time, e.priority, e.counter)

/-- Strict lexicographic order on ordering triples. -/
def tripleLT (p q : ℚ × Nat × Nat) : Prop :=
  p.1 < q.1 ∨ (p.1 = q.1 ∧ (p.2.1 < q.2.1 ∨ (p.2.1 = q.2.1 ∧ p.2.2 < q.2.2)))

instance (p q : ℚ × Nat × Nat) : Decidable (tripleLT p q) := by
  unfold tripleLT; infer_instance

/-- Pick the earlier of two events under `eventLT`, keeping the first
argument on ties. -/
def earlier (a b : SimEvent) : SimEvent := if eventLT b a then b else a

/-- Pop the least event under `eventLT` from a queue.  `heapq` pops a
least element with respect to `__lt__`; since distinct counters make
the order total, the popped event is determined, and we return it
together with the remaining events. -/
def popMin (q : List SimEvent) : Option (SimEvent × List SimEvent) :=
  match q with
  | [] => none
  | e :: es =>
    let m := es.foldl earlier e
    some (m, (e :: es).eraseP fun x => decide (x = m))

/-- The whole simulator state (`Simulation.__init__`).  The global
event counter of `event_types.py` is scoped to the state, as the spec's
design notes prescribe for a deterministic model. -/
structure SimState (D : Nat) where
  current_time : ℚ
  event_queue : List SimEvent := []
  nodes : List (Node D)
  apps : List (Application D)
  R_total : V D
  task_id_counter : Nat := 0
  all_tasks : Dict (Task D) := []
  ALPHA : ℚ := 1
  BETA : ℚ := 1
  EPSILON : ℚ := 1 / 1000
  event_counter : Nat := 0
deriving DecidableEq

namespace SimState

variable {D : Nat}

/-- Dict view of `self.nodes`: lookup by id returns the first node with
that id (ids are unique in well-formed states). -/
def findNode? (st : SimState D) (node_id : Nat) : Option (Node D) :=
  (st.nodes.find? fun n => n.id == node_id)

/-- Dict view of `self.apps`. -/
def findApp? (st : SimState D) (app_id : Nat) : Option (Application D) :=
  (st.apps.find? fun a => a.id == app_id)

/-- Replace the first node carrying the given id: the functional image
of mutating the node object held in `self.nodes`. -/
def setNode (st : SimState D) (node_id : Nat) (n : Node D) : SimState D :=
  { st with nodes := replaceFirst (fun m => m.id == node_id) n st.nodes }

/-- Replace the first application carrying the given id. -/
def setApp (st : SimState D) (app_id : Nat) (a : Application D) : SimState D :=
  { st with apps := replaceFirst (fun b => b.id == app_id) a st.apps }

/-- Total number of pending tasks across all applications. -/
def totalPending (st : SimState D) : Nat :=
  (st.apps.map fun a => a.pending_tasks.length).sum

end SimState

/-- The hypothetical dominant share of a usage vector
(`Simulation._calculate_s_i`). -/
def calc_s_i {D : Nat} (st : SimState D) (U_vector : V D) : ℚ :=
  let shares := (List.finRange D).map fun i =>
    if st.R_total i = 0 then 0 else U_vector i / st.R_total i
  listMax shares

/-- Wasted-work cost of preempting a running task
(`Simulation._calculate_task_cost`): elapsed time times the task's
dominant share of the cluster, with the same division conventions. -/
def taskCost {D : Nat} (st : SimState D) (t : Task D) : ℚ :=
  let t_p := t.elapsed_time st.current_time
  if t_p ≤ 0 then 0
  else
    let task_shares := (List.finRange D).map fun i =>
      if st.R_total i = 0 then 0 else t.requirements i / st.R_total i
    let max_share := listMax task_shares
    if max_share = 0 then 0 else t_p * max_share

/-- Ordering of nodes by id, used for `sorted(self.nodes.keys())`. -/
def nodeIdLE {D : Nat} (m n : Node D) : Prop := m.id ≤ n.id

instance {D : Nat} : DecidableRel (nodeIdLE (D := D)) := fun m n =>
  inferInstanceAs (Decidable (m.id ≤ n.id))

instance {D : Nat} : IsTotal (Node D) nodeIdLE := ⟨fun m n => Nat.le_total m.id n.id⟩

instance {D : Nat} : IsTrans (Node D) nodeIdLE := ⟨fun _ _ _ h h' => le_trans h h'⟩

/-- First-fit node selection (`Simulation.find_best_node`): iterate the
nodes in ascending id order (`sorted(self.nodes.keys())`) and return
the first that fits. -/
def find_best_node {D : Nat} (st : SimState D) (task_requirements : V D) :
    Option (Node D) :=
  (st.nodes.insertionSort nodeIdLE).find? fun n =>
    decide (n.can_fit task_requirements)

/-- Victim-application selection inside
`Simulation.find_preemption_candidate`: Python's `max` over the
applications that have running tasks, keyed by `s_i`; `max` keeps the
first maximal element, and raises (here `none`) on an empty range. -/
def victimSelect {D : Nat} (st : SimState D) : Option (Application D) :=
  match st.apps.filter fun a => ¬ a.running_tasks.isEmpty with
  | [] => none
  | a :: rest => some (rest.foldl (fun b x => if b.s_i < x.s_i then x else b) a)

/-- The greedy accumulation loop of steps 5–6 of
`Simulation.find_preemption_candidate`: walk the cost-sorted victim
tasks, accumulating the set `tau_Pk`, the freed resources and the total
cost, and stop at the first point where
`(C_k - freed) + D_W ≤ R_k` holds; `none` if the tasks run out. -/
def greedyVictims {D : Nat} (node : Node D) (D_W : V D) :
    List (ℚ × Task D) → List (Task D) → V D → ℚ →
    Option (List (Task D) × V D × ℚ)
  | [], _, _, _ => none
  | (c, t) :: rest, tau, freed, cost =>
    let tau' := tau ++ [t]
    let freed' := V.add freed t.requirements
    let cost' := cost + c
    if V.le (V.add (V.sub node.C_k freed') D_W) node.R_k then
      some (tau', freed', cost')
    else greedyVictims node D_W rest tau' freed' cost'

/-- The comparison used to sort `tasks_with_cost` by cost;
`insertionSort` with this non-strict key comparison is stable, exactly
like Python's `list.sort(key=lambda x: x[0])`. -/
def costLE {D : Nat} (a b : ℚ × Task D) : Prop := a.1 ≤ b.1

instance {D : Nat} : DecidableRel (costLE (D := D)) := fun a b =>
  inferInstanceAs (Decidable (a.1 ≤ b.1))

instance {D : Nat} : IsTotal (ℚ × Task D) costLE :=
  ⟨fun a b => le_total a.1 b.1⟩

instance {D : Nat} : IsTrans (ℚ × Task D) costLE :=
  ⟨fun _ _ _ h h' => le_trans h h'⟩

/-- The victim application's tasks on a node, paired with their
wasted-work costs and stably sorted by ascending cost (steps 3–4 of
`find_preemption_candidate`). -/
def sortedVictims {D : Nat} (st : SimState D) (victim_app : Application D)
    (node : Node D) : List (ℚ × Task D) :=
  ((node.running_tasks.values.filter fun t => t.app_id == victim_app.id).map
    fun t => (taskCost st t, t)).insertionSort costLE

/-- The per-node body of the loop in
`Simulation.find_preemption_candidate` (steps 3–11): collect the
victim application's tasks on the node, sort them by wasted-work cost,
build the cheapest sufficient set, and run the hierarchy, gain and
economic checks; returns `(total_cost, tau_Pk)` when every check
passes. -/
def nodeCandidate {D : Nat} (st : SimState D) (victim_app winner_app : Application D)
    (D_W : V D) (node : Node D) : Option (ℚ × List (Task D)) :=
  let victim_tasks_on_node :=
    node.running_tasks.values.filter fun t => t.app_id == victim_app.id
  if victim_tasks_on_node.isEmpty then none
  else
    match greedyVictims node D_W (sortedVictims st victim_app node) [] V.zero 0 with
    | none => none
    | some (tau_Pk, freed_resources, total_cost) =>
      let U_W' := V.add winner_app.U_i D_W
      let U_P' := V.sub victim_app.U_i freed_resources
      let s_W' := calc_s_i st U_W'
      let s_P' := calc_s_i st U_P'
      if ¬ s_P' > s_W' then none
      else
        let zysk := victim_app.s_i - s_P'
        if ¬ zysk > st.EPSILON then none
        else if zysk * st.ALPHA > total_cost * st.BETA then
          some (total_cost, tau_Pk)
        else none

/-- One step of the best-candidate fold in
`find_preemption_candidate` (steps 7–11 per node): keep the cheaper
candidate, the earlier node winning ties, as in the source's strict
comparison `candidate[0] < best_candidate[0]`. -/
def bestStep {D : Nat} (st : SimState D) (victim_app winner_app : Application D)
    (D_W : V D) (best : Option (ℚ × List (Task D) × Node D)) (node : Node D) :
    Option (ℚ × List (Task D) × Node D) :=
  match nodeCandidate st victim_app winner_app D_W node with
  | none => best
  | some (c, tau) =>
    match best with
    | none => some (c, tau, node)
    | some prev => if c < prev.1 then some (c, tau, node) else some prev

/-- The preemption evaluator
(`Simulation.find_preemption_candidate`): pick the victim application,
require `s_P > s_W`, evaluate every node, and keep the candidate of
strictly smallest cost. -/
def find_preemption_candidate {D : Nat} (st : SimState D)
    (winner_app : Application D) (winner_task : Task D) :
    Option (List (Task D) × Node D) :=
  match victimSelect st with
  | none => none
  | some victim_app =>
    if victim_app.s_i > winner_app.s_i then
      let best := st.nodes.foldl
        (bestStep st victim_app winner_app winner_task.requirements) none
      match best with
      | some (_, tau, node) => some (tau, node)
      | none => none
    else none

/-- Direct placement of a task (block 2 of `run_scheduler_cycle`): pop
the head pending task, mark it running, add it to the node and to the
application, recompute the share, and enqueue its finish event.  The
Python task object is aliased from `all_tasks`, the node map and the
app map, so the mutated task is written to all of them.  `none` models
the `ValueError` that `Node.add_task` would raise. -/
def placeTask {D : Nat} (st : SimState D) (app : Application D) (task : Task D)
    (node : Node D) : Option (SimState D) :=
  let task' := { task with status := .RUNNING, start_time := st.current_time,
                           node_id := (node.id : Int) }
  match node.add_task task' with
  | none => none
  | some node' =>
    let app' := Application.update_dominant_share
      { app with pending_tasks := app.pending_tasks.tail,
                 U_i := V.add app.U_i task'.requirements,
                 running_tasks := app.running_tasks.insert task'.id task' }
      st.R_total
    let evt : SimEvent :=
      { time := st.current_time + task'.duration, priority := 1,
        counter := st.event_counter,
        payload := .taskFinish task'.id app.id node.id }
    let st1 := (st.setNode node.id node').setApp app.id app'
    some { st1 with event_queue := st1.event_queue ++ [evt],
                    event_counter := st1.event_counter + 1,
                    all_tasks := st1.all_tasks.insert task'.id task' }

/-- The per-victim loop of the preemption block (steps 1–2): remove the
victim from the node (`ValueError` uncaught here: crash), delete it
from the victim app's running map (`KeyError`: crash), reset it to
pending at the head of the victim app's pending list, mirror the
mutation into the global task map, and accumulate the freed
resources. -/
def preemptLoop {D : Nat} : List (Task D) → Node D → Application D →
    Dict (Task D) → V D →
    Option (Node D × Application D × Dict (Task D) × V D)
  | [], node, vapp, allt, freed => some (node, vapp, allt, freed)
  | t :: ts, node, vapp, allt, freed =>
    match node.remove_task t with
    | none => none
    | some node' =>
      if vapp.running_tasks.contains t.id then
        let t' := { t with status := TaskStatus.PENDING, start_time := -1,
                           node_id := -1 }
        let vapp' := { vapp with
          running_tasks := vapp.running_tasks.erase t.id,
          pending_tasks := t' :: vapp.pending_tasks }
        preemptLoop ts node' vapp' (allt.insert t.id t')
          (V.add freed t.requirements)
      else none

/-- Application of a chosen preemption (block 3 of
`run_scheduler_cycle`): evict the victims, update the victim app's
usage and share, then place the winner task on the freed node exactly
as a direct placement.  `none` models any uncaught exception, in
particular the `ValueError` from `add_task` when the eviction did not
actually free enough room. -/
def applyPreemption {D : Nat} (st : SimState D) (winner_app : Application D)
    (winner_task : Task D) (victims : List (Task D)) (node : Node D) :
    Option (SimState D) :=
  match victims with
  | [] => none
  | v0 :: _ =>
    match st.findApp? v0.app_id with
    | none => none
    | some vapp =>
      match preemptLoop victims node vapp st.all_tasks V.zero with
      | none => none
      | some (node', vapp1, allt1, freed) =>
        let vapp2 := Application.update_dominant_share
          { vapp1 with U_i := V.sub vapp1.U_i freed } st.R_total
        let task' := { winner_task with
                       status := TaskStatus.RUNNING,
                       start_time := st.current_time,
                       node_id := (node.id : Int) }
        match node'.add_task task' with
        | none => none
        | some node'' =>
          let winner' := Application.update_dominant_share
            { winner_app with
              pending_tasks := winner_app.pending_tasks.tail,
              U_i := V.add winner_app.U_i task'.requirements,
              running_tasks := winner_app.running_tasks.insert task'.id task' }
            st.R_total
          let evt : SimEvent :=
            { time := st.current_time + task'.duration, priority := 1,
              counter := st.event_counter,
              payload := .taskFinish task'.id winner_app.id node.id }
          let st1 := ((st.setNode node.id node'').setApp vapp.id vapp2).setApp
            winner_app.id winner'
          some { st1 with event_queue := st1.event_queue ++ [evt],
                          event_counter := st1.event_counter + 1,
                          all_tasks := allt1.insert task'.id task' }

/-- Outcome of one round (one pass of the `for app in
posortowane_aplikacje` loop) of `run_scheduler_cycle`. -/
inductive RoundOutcome (D : Nat) where
  | noPending
  | noAlloc
  | direct (app : Application D) (task : Task D) (node : Node D) (st' : SimState D)
  | preempt (app : Application D) (task : Task D) (victims : List (Task D))
      (node : Node D) (st' : SimState D)
  | crash
deriving DecidableEq

/-- The `for` loop over the sorted applications: each application's
head pending task is tried for direct placement, then for preemption;
the first allocation breaks the loop. -/
def visitApps {D : Nat} (st : SimState D) :
    List (Application D) → RoundOutcome D
  | [] => .noAlloc
  | app :: rest =>
    match app.pending_tasks with
    | [] => visitApps st rest
    | task :: _ =>
      match find_best_node st task.requirements with
      | some node =>
        match placeTask st app task node with
        | some st' => .direct app task node st'
        | none => .crash
      | none =>
        match find_preemption_candidate st app task with
        | some (victims, node) =>
          if victims.isEmpty then visitApps st rest
          else
            match applyPreemption st app task victims node with
            | some st' => .preempt app task victims node st'
            | none => .crash
        | none => visitApps st rest

/-- Ordering of applications by dominant share, the key of
`sorted(pending_apps, key=lambda a: a.s_i)`. -/
def appShareLE {D : Nat} (a b : Application D) : Prop := a.s_i ≤ b.s_i

instance {D : Nat} : DecidableRel (appShareLE (D := D)) := fun a b =>
  inferInstanceAs (Decidable (a.s_i ≤ b.s_i))

instance {D : Nat} : IsTotal (Application D) appShareLE :=
  ⟨fun a b => le_total a.s_i b.s_i⟩

instance {D : Nat} : IsTrans (Application D) appShareLE :=
  ⟨fun _ _ _ h h' => le_trans h h'⟩

/-- One round of `run_scheduler_cycle`: collect the applications with
pending tasks, stop if none, sort them ascending by `s_i` (a stable
sort, like Python's `sorted`), and run the `for` loop. -/
def scheduleRound {D : Nat} (st : SimState D) : RoundOutcome D :=
  let pending_apps := st.apps.filter fun a => ¬ a.pending_tasks.isEmpty
  if pending_apps.isEmpty then .noPending
  else visitApps st (pending_apps.insertionSort appShareLE)

/-- Result of a scheduling cycle, instrumented with the number of
rounds that made an allocation, the number of victims preempted along
the way, and whether the `while` loop actually reached its exit
condition within the supplied fuel. -/
structure CycleResult (D : Nat) where
  state : SimState D
  rounds : Nat
  victims : Nat
  completed : Bool
deriving DecidableEq

/-- The `while True` loop of `Simulation.run_scheduler_cycle`, with
explicit fuel.  A round that allocates starts a new round; a round that
does not terminates the cycle. -/
def run_scheduler_cycle {D : Nat} : Nat → SimState D → Option (CycleResult D)
  | 0, st => some ⟨st, 0, 0, false⟩
  | fuel + 1, st =>
    match scheduleRound st with
    | .noPending => some ⟨st, 0, 0, true⟩
    | .noAlloc => some ⟨st, 0, 0, true⟩
    | .direct _ _ _ st' =>
      (run_scheduler_cycle fuel st').map fun r =>
        ⟨r.state, r.rounds + 1, r.victims, r.completed⟩
    | .preempt _ _ vs _ st' =>
      (run_scheduler_cycle fuel st').map fun r =>
        ⟨r.state, r.rounds + 1, r.victims + vs.length, r.completed⟩
    | .crash => none

/-- The task-creation loop of `Simulation.handle_submit_event`:
instantiate `num_tasks` tasks from the prototype, append them to the
pending list and register them in the global map. -/
def submitLoop {D : Nat} (app_id : Nat) (req : V D) (dur : ℚ) :
    Nat → Nat → List (Task D) → Dict (Task D) →
    Nat × List (Task D) × Dict (Task D)
  | 0, ctr, pend, allt => (ctr, pend, allt)
  | n + 1, ctr, pend, allt =>
    let t : Task D := { id := ctr, app_id := app_id, requirements := req,
                        duration := dur }
    submitLoop app_id req dur n (ctr + 1) (pend ++ [t]) (allt.insert ctr t)

/-- Handler for a `SubmitEvent` (`Simulation.handle_submit_event`);
`none` models the `KeyError` on an unknown application id. -/
def handle_submit_event {D : Nat} (st : SimState D)
    (app_id num_tasks : Nat) : Option (SimState D) :=
  match st.findApp? app_id with
  | none => none
  | some app =>
    let r := submitLoop app_id app.proto_requirements app.proto_duration
      num_tasks st.task_id_counter app.pending_tasks st.all_tasks
    let st1 := st.setApp app_id { app with pending_tasks := r.2.1 }
    some { st1 with task_id_counter := r.1, all_tasks := r.2.2 }

/-- Handler for a `TaskFinishEvent`
(`Simulation.handle_task_finish_event`).  An id absent from the global
map is ignored with a warning.  Inside the `try`, `Node.remove_task`
raises `ValueError` before mutating when the task is not on the node;
that exception is caught, leaving the state unchanged.  A `KeyError`
from `del app.running_tasks[task_id]` is not caught: crash (`none`). -/
def handle_task_finish_event {D : Nat} (st : SimState D)
    (task_id app_id node_id : Nat) : Option (SimState D) :=
  match Dict.find? st.all_tasks task_id with
  | none => some st
  | some task =>
    match st.findNode? node_id, st.findApp? app_id with
    | none, _ => none
    | _, none => none
    | some node, some app =>
      match node.remove_task task with
      | none => some st
      | some node' =>
        if app.running_tasks.contains task_id then
          let app' := Application.update_dominant_share
            { app with U_i := V.sub app.U_i task.requirements,
                       running_tasks := app.running_tasks.erase task_id }
            st.R_total
          let st1 := (st.setNode node_id node').setApp app_id app'
          some { st1 with all_tasks := st1.all_tasks.erase task_id }
        else none

/-- Whether a payload belongs to a `SchedulerRunEvent`. -/
def EventPayload.isSchedulerRun : EventPayload → Bool
  | .schedulerRun _ => true
  | _ => false

/-- Enqueue a scheduler run (`Simulation.trigger_scheduler_run`) unless
one is already queued at the current time. -/
def trigger_scheduler_run {D : Nat} (st : SimState D)
    (allocation_made : Bool := false) : SimState D :=
  if st.event_queue.any fun e =>
      e.payload.isSchedulerRun && decide (e.time = st.current_time) then st
  else
    let evt : SimEvent := { time := st.current_time, priority := 2,
                            counter := st.event_counter,
                            payload := .schedulerRun allocation_made }
    { st with event_queue := st.event_queue ++ [evt],
              event_counter := st.event_counter + 1 }

/-- Dispatch of a popped event inside `Simulation.run` (the
`isinstance` chain).  `fuel` bounds the scheduler cycle's `while`
loop. -/
def dispatch {D : Nat} (fuel : Nat) (st : SimState D) (e : SimEvent) :
    Option (SimState D) :=
  match e.payload with
  | .submit app_id num_tasks => handle_submit_event st app_id num_tasks
  | .taskFinish task_id app_id node_id =>
    handle_task_finish_event st task_id app_id node_id
  | .schedulerRun _ => (run_scheduler_cycle fuel st).map CycleResult.state

/-- One iteration of the `while self.event_queue` loop of
`Simulation.run`, applied to an explicitly chosen event `e`: remove it
from the queue, advance the clock, dispatch, then re-trigger a
scheduler run after a state-changing event when none is queued. -/
def stepWith {D : Nat} (fuel : Nat) (st : SimState D) (e : SimEvent) :
    Option (SimState D) :=
  let st1 := { st with
               current_time := e.time,
               event_queue := st.event_queue.eraseP fun x => decide (x = e) }
  match dispatch fuel st1 e with
  | none => none
  | some st2 =>
    match e.payload with
    | .schedulerRun false => some st2
    | _ =>
      if st2.event_queue.any fun x => x.payload.isSchedulerRun then some st2
      else some (trigger_scheduler_run st2)

/-- One iteration of `Simulation.run`'s loop: pop the least event and
process it. -/
def stepSim {D : Nat} (fuel : Nat) (st : SimState D) : Option (SimState D) :=
  match popMin st.event_queue with
  | none => none
  | some (e, _) => stepWith fuel st e

/-- The step relation of the event loop: some event of the queue that
is strictly least under `SimEvent.__lt__` is processed.  `heapq`
guarantees that the popped event is a least one; when the order is
strict this pins the event down, which is what claim C9 is about. -/
def StepRel {D : Nat} (fuel : Nat) (s : SimState D) (e : SimEvent)
    (t : SimState D) : Prop :=
  e ∈ s.event_queue ∧ (∀ e' ∈ s.event_queue, e' ≠ e → eventLT e e') ∧
    stepWith fuel s e = some t

/-- A finite prefix of the run: the listed events are dispatched in
order. -/
inductive Steps {D : Nat} (fuel : Nat) :
    SimState D → List SimEvent → SimState D → Prop
  | nil (s : SimState D) : Steps fuel s [] s
  | cons {s t u : SimState D} {e : SimEvent} {es : List SimEvent} :
      StepRel fuel s e t → Steps fuel t es u → Steps fuel s (e :: es) u

/-! ### Derived definitions used by the claim statements -/

/-- The spec's dominant-share formula (§4.3), written from the spec's
words: elementwise share `U / R_total` with the convention
`0/0 = x/0 = 0`, then the maximum component, or `0` if `D = 0`. -/
def domShareSpec {D : Nat} (U R : V D) : ℚ :=
  if h : D = 0 then 0
  else
    (Finset.univ.sup'
      (⟨⟨0, Nat.pos_of_ne_zero h⟩, Finset.mem_univ _⟩ : Finset.univ.Nonempty)
      fun i => if R i = 0 then 0 else U i / R i)

/-- A freshly constructed node (`Node.__post_init__`): usage starts at
zero. -/
def mkNode {D : Nat} (id : Nat) (R_k : V D) : Node D :=
  { id := id, R_k := R_k }

/-- A freshly constructed application (`Application.__post_init__`):
usage starts at zero. -/
def mkApplication {D : Nat} (id : Nat) (req : V D) (dur : ℚ) : Application D :=
  { id := id, proto_requirements := req, proto_duration := dur }

/-- The constructor `Simulation.__init__`: fresh nodes and
applications, `R_total` the sum of node capacities, and one
`SubmitEvent` per entry of the submission schedule, with counters
assigned in schedule order. -/
def initState {D : Nat} (nodeSpecs : List (Nat × V D))
    (appSpecs : List (Nat × V D × ℚ)) (schedule : List (ℚ × Nat × Nat))
    (alpha beta eps : ℚ) : SimState D :=
  let nodes := nodeSpecs.map fun p => mkNode p.1 p.2
  let events := schedule.enum.map fun p =>
    ({ time := p.2.1, priority := 1, counter := p.1,
       payload := .submit p.2.2.1 p.2.2.2 } : SimEvent)
  { current_time := 0, event_queue := events, nodes := nodes,
    apps := appSpecs.map fun p => mkApplication p.1 p.2.1 p.2.2,
    R_total := fun i => (nodes.map fun n => n.R_k i).sum,
    ALPHA := alpha, BETA := beta, EPSILON := eps,
    event_counter := schedule.length }

/-- Componentwise sum of the victims' requirement vectors (the value
`zasoby_zwolnione` accumulates). -/
def sumReqAt {D : Nat} (ts : List (Task D)) : V D :=
  fun i => (ts.map fun t => t.requirements i).sum

/-- Whether the winner task fits on the node once the listed tasks are
removed: `(C_k - F) + D_W ≤ R_k` componentwise. -/
def fitsAfterRemoving {D : Nat} (n : Node D) (ts : List (Task D)) (D_W : V D) :
    Prop :=
  V.le (V.add (V.sub n.C_k (sumReqAt ts)) D_W) n.R_k

instance {D : Nat} (n : Node D) (ts : List (Task D)) (D_W : V D) :
    Decidable (fitsAfterRemoving n ts D_W) :=
  inferInstanceAs (Decidable (V.le _ _))

/-- Componentwise total usage over all applications, `Σ U_i`. -/
def sumU {D : Nat} (st : SimState D) : V D :=
  fun i => (st.apps.map fun a => a.U_i i).sum

/-- Componentwise total usage over all nodes, `Σ C_k`. -/
def sumC {D : Nat} (st : SimState D) : V D :=
  fun i => (st.nodes.map fun n => n.C_k i).sum

/-- The conservation invariant of the spec's testable property 5:
`Σ U_i = Σ C_k` componentwise. -/
def conserve {D : Nat} (st : SimState D) : Prop :=
  ∀ i, sumU st i = sumC st i

instance {D : Nat} (st : SimState D) : Decidable (conserve st) :=
  inferInstanceAs (Decidable (∀ _, _ = _))

/-! ### Concrete states used by the counterexamples and witnesses -/

/-- A two-dimensional resource vector (e.g. `[cpu, mem]`). -/
def vec2 (a b : ℚ) : V 2 := fun i => if i = 0 then a else b

/-- Victim task 1 of application 1: just started on node 1. -/
def exV1 : Task 2 :=
  { id := 1, app_id := 1, requirements := vec2 1 8, duration := 100,
    status := .RUNNING, start_time := 0, node_id := 1 }

/-- Victim task 2 of application 1: just started on node 1. -/
def exV2 : Task 2 :=
  { id := 2, app_id := 1, requirements := vec2 1 8, duration := 100,
    status := .RUNNING, start_time := 0, node_id := 1 }

/-- A large task of application 1 filling node 4. -/
def exV3 : Task 2 :=
  { id := 3, app_id := 1, requirements := vec2 4 100, duration := 100,
    status := .RUNNING, start_time := 0, node_id := 4 }

/-- The pending winner task of application 2. -/
def exTW : Task 2 :=
  { id := 4, app_id := 2, requirements := vec2 2 1, duration := 50 }

/-- Node 1: full with the two small victim tasks. -/
def exN1 : Node 2 :=
  { id := 1, R_k := vec2 2 16, C_k := vec2 2 16,
    running_tasks := [(1, exV1), (2, exV2)] }

/-- Node 2: empty, fits a `[1, 8]` task but not the `[2, 1]` winner. -/
def exN2 : Node 2 := { id := 2, R_k := vec2 1 8, C_k := vec2 0 0 }

/-- Node 3: empty, same shape as node 2. -/
def exN3 : Node 2 := { id := 3, R_k := vec2 1 8, C_k := vec2 0 0 }

/-- Node 4: full with the large task of application 1. -/
def exN4 : Node 2 :=
  { id := 4, R_k := vec2 4 100, C_k := vec2 4 100,
    running_tasks := [(3, exV3)] }

/-- Application 1, the victim: three running tasks, none pending,
dominant share `116/132 = 29/33`. -/
def exP : Application 2 :=
  { id := 1, proto_requirements := vec2 1 8, proto_duration := 100,
    running_tasks := [(1, exV1), (2, exV2), (3, exV3)],
    U_i := vec2 6 116, s_i := 29 / 33 }

/-- Application 2, the winner: one pending task, nothing running. -/
def exW : Application 2 :=
  { id := 2, proto_requirements := vec2 2 1, proto_duration := 50,
    pending_tasks := [exTW], s_i := 0 }

/-- A cycle-start state with exactly one pending task whose placement
requires preempting two tasks, which are then re-placed in two further
rounds: three allocation rounds from one pending task. -/
def exC2St : SimState 2 :=
  { current_time := 0, nodes := [exN1, exN2, exN3, exN4],
    apps := [exP, exW], R_total := vec2 8 132, task_id_counter := 5,
    all_tasks := [(1, exV1), (2, exV2), (3, exV3), (4, exTW)] }

/-- A task that was preempted from node 1 after its finish event was
enqueued, and later re-placed on the same node 1 (at `t = 5`, with a
fresh finish event at `t = 25` in the queue). -/
def exT7 : Task 2 :=
  { id := 7, app_id := 2, requirements := vec2 4 2, duration := 20,
    status := .RUNNING, start_time := 5, node_id := 1 }

/-- Node 1 of the stale-finish scenario, running the re-placed task. -/
def exN1b : Node 2 :=
  { id := 1, R_k := vec2 8 16, C_k := vec2 4 2,
    running_tasks := [(7, exT7)] }

/-- The owner application of the re-placed task. -/
def exA2 : Application 2 :=
  { id := 2, proto_requirements := vec2 4 2, proto_duration := 20,
    running_tasks := [(7, exT7)], U_i := vec2 4 2, s_i := 1 / 2 }

/-- The state at `t = 16` when the stale finish event (enqueued at the
original placement, before the preemption) is popped: task 7 is running
again on node 1 with 9 seconds left, and its fresh finish event at
`t = 25` is still queued. -/
def exC1St : SimState 2 :=
  { current_time := 16,
    event_queue := [{ time := 25, priority := 1, counter := 9,
                      payload := .taskFinish 7 2 1 }],
    nodes := [exN1b], apps := [exA2], R_total := vec2 8 16,
    task_id_counter := 8, all_tasks := [(7, exT7)], event_counter := 10 }

/-- A small pending task used by the direct-placement witnesses. -/
def exD1 : Task 2 := { id := 10, app_id := 5, requirements := vec2 1 1, duration := 2 }

/-- A second small pending task of the same application. -/
def exD2 : Task 2 := { id := 11, app_id := 5, requirements := vec2 1 1, duration := 2 }

/-- An application with two pending tasks and nothing running. -/
def exDirApp : Application 2 :=
  { id := 5, proto_requirements := vec2 1 1, proto_duration := 2,
    pending_tasks := [exD1, exD2] }

/-- An empty node with room for both tasks. -/
def exDirNode : Node 2 := { id := 1, R_k := vec2 4 4, C_k := vec2 0 0 }

/-- A state where both pending tasks place directly: two allocation
rounds from two pending tasks, no preemption. -/
def exDirSt : SimState 2 :=
  { current_time := 0, nodes := [exDirNode], apps := [exDirApp],
    R_total := vec2 4 4, task_id_counter := 12,
    all_tasks := [(10, exD1), (11, exD2)] }

/-- The state after directly placing the head task of `exDirApp`. -/
def exDirSt' : SimState 2 :=
  (placeTask exDirSt exDirApp exD1 exDirNode).get (by decide!)

/-- A submit event used by the determinism witness. -/
def exEvt : SimEvent :=
  { time := 1, priority := 1, counter := 0, payload := .submit 2 1 }

/-- A one-event state for the determinism witness. -/
def exC9St : SimState 2 :=
  { current_time := 0, event_queue := [exEvt], nodes := [exN2],
    apps := [{ id := 2, proto_requirements := vec2 1 1, proto_duration := 3 }],
    R_total := vec2 1 8, event_counter := 1 }

/-- The unique successor of `exC9St` under the event-loop step. -/
def exC9T : SimState 2 := (stepWith 4 exC9St exEvt).get (by decide!)

/-- A zero-dimensional state, exercising the `D = 0` branch of the
dominant-share computation. -/
def exSt0 : SimState 0 :=
  { current_time := 0, nodes := [], apps := [], R_total := fun i => i.elim0 }

/-- The state after the preemption round of `exC2St`: both victims
evicted from node 1 and the winner task placed there. -/
def exC2StAfter1 : SimState 2 :=
  (applyPreemption exC2St exW exTW [exV1, exV2] exN1).get (by decide!)

/-- The result of the victim-eviction loop on the counterexample
state: node 1 emptied, both victims re-pended. -/
def exLoopRes : Node 2 × Application 2 × Dict (Task 2) × V 2 :=
  (preemptLoop [exV1, exV2] exN1 exP exC2St.all_tasks V.zero).get (by decide!)

/-- The instrumented result of running a cycle on `exDirSt`: two
direct rounds, no preemption. -/
def exDirCycle : CycleResult 2 :=
  (run_scheduler_cycle 3 exDirSt).get (by decide!)

/-- A scheduler-run event at time 0 that was enqueued first. -/
def exE7a : SimEvent :=
  { time := 0, priority := 2, counter := 0, payload := .schedulerRun false }

/-- A submit event at the same time 0, enqueued second. -/
def exE7b : SimEvent :=
  { time := 0, priority := 1, counter := 1, payload := .submit 1 1 }

/-! ### Order facts about the event comparison -/

theorem V.add_apply {D : Nat} (u v : V D) (i : Fin D) :
    V.add u v i = u i + v i := rfl

theorem V.sub_apply {D : Nat} (u v : V D) (i : Fin D) :
    V.sub u v i = u i - v i := rfl

theorem V.zero_apply {D : Nat} (i : Fin D) : (V.zero : V D) i = 0 := rfl

theorem eventLT_iff_tripleLT (a b : SimEvent) :
    eventLT a b ↔ tripleLT (tripleOf a) (tripleOf b) := by
  unfold eventLT tripleLT tripleOf
  split_ifs with ht hp
  · constructor
    · exact fun h => Or.inl h
    · rintro (h | ⟨h1, _⟩)
      · exact h
      · exact absurd h1 ht
  · have he := not_not.mp ht
    constructor
    · exact fun h => Or.inr ⟨he, Or.inl h⟩
    · rintro (h | ⟨_, h2 | ⟨h3, _⟩⟩)
      · exact absurd (he ▸ h) (lt_irrefl _)
      · exact h2
      · exact absurd h3 hp
  · have he := not_not.mp ht
    have hpe := not_not.mp hp
    constructor
    · exact fun h => Or.inr ⟨he, Or.inr ⟨hpe, h⟩⟩
    · rintro (h | ⟨_, h2 | ⟨_, h4⟩⟩)
      · exact absurd (he ▸ h) (lt_irrefl _)
      · exact absurd (hpe ▸ h2) (lt_irrefl _)
      · exact h4

theorem tripleLT_irrefl (p : ℚ × Nat × Nat) : ¬ tripleLT p p := by
  unfold tripleLT
  rintro (h | ⟨_, h | ⟨_, h⟩⟩) <;> exact absurd h (lt_irrefl _)

theorem tripleLT_trans {p q r : ℚ × Nat × Nat}
    (h1 : tripleLT p q) (h2 : tripleLT q r) : tripleLT p r := by
  unfold tripleLT at h1 h2 ⊢
  rcases h1 with h1 | ⟨e1, h1 | ⟨f1, g1⟩⟩ <;>
    rcases h2 with h2 | ⟨e2, h2 | ⟨f2, g2⟩⟩
  · exact Or.inl (lt_trans h1 h2)
  · exact Or.inl (e2 ▸ h1)
  · exact Or.inl (e2 ▸ h1)
  · exact Or.inl (e1 ▸ h2)
  · exact Or.inr ⟨e1.trans e2, Or.inl (lt_trans h1 h2)⟩
  · exact Or.inr ⟨e1.trans e2, Or.inl (f2 ▸ h1)⟩
  · exact Or.inl (e1 ▸ h2)
  · exact Or.inr ⟨e1.trans e2, Or.inl (f1 ▸ h2)⟩
  · exact Or.inr ⟨e1.trans e2, Or.inr ⟨f1.trans f2, lt_trans g1 g2⟩⟩

theorem eventLT_irrefl (a : SimEvent) : ¬ eventLT a a := by
  rw [eventLT_iff_tripleLT]; exact tripleLT_irrefl _

theorem eventLT_trans {a b c : SimEvent} (h1 : eventLT a b)
    (h2 : eventLT b c) : eventLT a c := by
  rw [eventLT_iff_tripleLT] at h1 h2 ⊢; exact tripleLT_trans h1 h2

theorem eventLT_asymm {a b : SimEvent} (h1 : eventLT a b)
    (h2 : eventLT b a) : False :=
  eventLT_irrefl a (eventLT_trans h1 h2)

theorem eventLT_total_of_ne_counter {a b : SimEvent}
    (h : a.counter ≠ b.counter) : eventLT a b ∨ eventLT b a := by
  rw [eventLT_iff_tripleLT, eventLT_iff_tripleLT]
  unfold tripleLT tripleOf
  rcases lt_trichotomy a.time b.time with ht | ht | ht
  · exact Or.inl (Or.inl ht)
  · rcases Nat.lt_trichotomy a.priority b.priority with hp | hp | hp
    · exact Or.inl (Or.inr ⟨ht, Or.inl hp⟩)
    · rcases Nat.lt_or_ge a.counter b.counter with hc | hc
      · exact Or.inl (Or.inr ⟨ht, Or.inr ⟨hp, hc⟩⟩)
      · exact Or.inr (Or.inr ⟨ht.symm, Or.inr ⟨hp.symm,
          Nat.lt_of_le_of_ne hc (Ne.symm h)⟩⟩)
    · exact Or.inr (Or.inr ⟨ht.symm, Or.inl hp⟩)
  · exact Or.inr (Or.inl ht)

/-! ### Facts about listMax -/

theorem le_foldl_max : ∀ (l : List ℚ) (a : ℚ), a ≤ l.foldl max a
  | [], _ => le_refl _
  | b :: bs, a => le_trans (le_max_left a b) (le_foldl_max bs (max a b))

theorem mem_le_foldl_max :
    ∀ (l : List ℚ) (a x : ℚ), x ∈ l → x ≤ l.foldl max a
  | b :: bs, a, x, h => by
    rcases List.mem_cons.mp h with rfl | h
    · exact le_trans (le_max_right a x) (le_foldl_max bs (max a x))
    · exact mem_le_foldl_max bs (max a b) x h

theorem foldl_max_mem :
    ∀ (l : List ℚ) (a : ℚ), l.foldl max a = a ∨ l.foldl max a ∈ l
  | [], a => Or.inl rfl
  | b :: bs, a => by
    rcases foldl_max_mem bs (max a b) with h | h
    · rcases max_choice a b with hm | hm
      · exact Or.inl (h.trans hm)
      · exact Or.inr (List.mem_cons.mpr (Or.inl (h.trans hm)))
    · exact Or.inr (List.mem_cons.mpr (Or.inr h))

theorem listMax_cons (y : ℚ) (ys : List ℚ) :
    listMax (y :: ys) = ys.foldl max y := rfl

theorem le_listMax (l : List ℚ) (x : ℚ) (h : x ∈ l) : x ≤ listMax l := by
  match l with
  | y :: ys =>
    rw [listMax_cons]
    rcases List.mem_cons.mp h with rfl | h
    · exact le_foldl_max ys x
    · exact mem_le_foldl_max ys y x h

theorem listMax_mem (l : List ℚ) (h : l ≠ []) : listMax l ∈ l := by
  match l with
  | y :: ys =>
    rw [listMax_cons]
    rcases foldl_max_mem ys y with h | h
    · exact List.mem_cons.mpr (Or.inl h)
    · exact List.mem_cons.mpr (Or.inr h)

/-! ### Facts about replaceFirst and find? -/

theorem sum_map_replaceFirst {α : Type} {M : Type} [AddCommMonoid M]
    (p : α → Bool) (a' : α) (f : α → M) :
    ∀ (l : List α) (a : α), l.find? p = some a →
      ((replaceFirst p a' l).map f).sum + f a = (l.map f).sum + f a'
  | b :: bs, a, h => by
    by_cases hpb : p b
    · rw [List.find?_cons_of_pos _ hpb] at h
      injection h with h; subst h
      simp only [replaceFirst, if_pos hpb, List.map_cons, List.sum_cons]
      abel
    · rw [List.find?_cons_of_neg _ hpb] at h
      simp only [replaceFirst, if_neg hpb, List.map_cons, List.sum_cons]
      rw [add_assoc, sum_map_replaceFirst p a' f bs a h, ← add_assoc]

theorem map_replaceFirst_congr {α β : Type} (p : α → Bool) (a' : α)
    (g : α → β) (h : ∀ b, p b = true → g b = g a') :
    ∀ l : List α, (replaceFirst p a' l).map g = l.map g
  | [] => rfl
  | b :: bs => by
    by_cases hpb : p b
    · simp only [replaceFirst, if_pos hpb, List.map_cons]
      rw [h b hpb]
    · simp only [replaceFirst, if_neg hpb, List.map_cons,
        map_replaceFirst_congr p a' g h bs]

theorem find?_replaceFirst_of_disjoint {α : Type} (p q : α → Bool) (a' : α)
    (hpq : ∀ b, p b = true → q b = false) (ha' : q a' = false) :
    ∀ l : List α, (replaceFirst p a' l).find? q = l.find? q
  | [] => rfl
  | b :: bs => by
    by_cases hpb : p b
    · simp only [replaceFirst, if_pos hpb]
      rw [List.find?_cons_of_neg _ (by simp [ha']),
        List.find?_cons_of_neg _ (by simp [hpq b hpb])]
    · simp only [replaceFirst, if_neg hpb]
      by_cases hqb : q b
      · rw [List.find?_cons_of_pos _ hqb, List.find?_cons_of_pos _ hqb]
      · rw [List.find?_cons_of_neg _ hqb, List.find?_cons_of_neg _ hqb,
          find?_replaceFirst_of_disjoint p q a' hpq ha' bs]

theorem find?_of_nodup_keys {α : Type} (key : α → Nat) :
    ∀ (l : List α) (a : α), (l.map key).Nodup → a ∈ l →
      l.find? (fun b => key b == key a) = some a
  | b :: bs, a, hnd, hmem => by
    rcases List.mem_cons.mp hmem with rfl | hmem
    · exact List.find?_cons_of_pos _ (by simp)
    · have hne : key b ≠ key a := by
        intro he
        exact (List.nodup_cons.mp (by simpa using hnd)).1
          (he ▸ List.mem_map_of_mem key hmem)
      rw [List.find?_cons_of_neg _ (by simpa using hne)]
      exact find?_of_nodup_keys key bs a
        (List.nodup_cons.mp (by simpa using hnd)).2 hmem

theorem mem_of_eq_of_nodup_keys {α : Type} (key : α → Nat) (l : List α)
    (a b : α) (hnd : (l.map key).Nodup) (ha : a ∈ l) (hb : b ∈ l)
    (hk : key a = key b) : a = b := by
  have h1 := find?_of_nodup_keys key l a hnd ha
  have h2 := find?_of_nodup_keys key l b hnd hb
  rw [show (fun c => key c == key a) = (fun c => key c == key b) from
    funext fun c => by rw [hk]] at h1
  injection h1.symm.trans h2

/-! ### Facts about popMin -/

theorem tripleLT_trichotomy (p q : ℚ × Nat × Nat) :
    tripleLT p q ∨ p = q ∨ tripleLT q p := by
  unfold tripleLT
  rcases lt_trichotomy p.1 q.1 with h | h | h
  · exact Or.inl (Or.inl h)
  · rcases Nat.lt_trichotomy p.2.1 q.2.1 with h2 | h2 | h2
    · exact Or.inl (Or.inr ⟨h, Or.inl h2⟩)
    · rcases Nat.lt_trichotomy p.2.2 q.2.2 with h3 | h3 | h3
      · exact Or.inl (Or.inr ⟨h, Or.inr ⟨h2, h3⟩⟩)
      · exact Or.inr (Or.inl (Prod.ext h (Prod.ext h2 h3)))
      · exact Or.inr (Or.inr (Or.inr ⟨h.symm, Or.inr ⟨h2.symm, h3⟩⟩))
    · exact Or.inr (Or.inr (Or.inr ⟨h.symm, Or.inl h2⟩))
  · exact Or.inr (Or.inr (Or.inl h))

theorem eventLT_of_triple_eq {a b c : SimEvent}
    (h : tripleOf a = tripleOf b) (hlt : eventLT a c) : eventLT b c := by
  rw [eventLT_iff_tripleLT] at hlt ⊢
  exact h ▸ hlt

theorem eventLT_neg_neg {b e m : SimEvent} (h1 : ¬ eventLT b e)
    (h2 : ¬ eventLT e m) : ¬ eventLT b m := by
  intro hbm
  rcases tripleLT_trichotomy (tripleOf b) (tripleOf e) with h | h | h
  · exact h1 ((eventLT_iff_tripleLT b e).mpr h)
  · exact h2 (eventLT_of_triple_eq h hbm)
  · exact h2 (eventLT_trans ((eventLT_iff_tripleLT e b).mpr h) hbm)

theorem earlier_cases (a b : SimEvent) : earlier a b = a ∨ earlier a b = b := by
  unfold earlier; split_ifs <;> simp

theorem foldl_earlier_mem :
    ∀ (es : List SimEvent) (e : SimEvent), es.foldl earlier e ∈ e :: es
  | [], e => List.mem_cons_self e []
  | b :: bs, e => by
    show bs.foldl earlier (earlier e b) ∈ e :: b :: bs
    have h := foldl_earlier_mem bs (earlier e b)
    rcases List.mem_cons.mp h with h | h
    · rw [h]
      rcases earlier_cases e b with h2 | h2 <;> rw [h2]
      · exact List.mem_cons_self _ _
      · exact List.mem_cons_of_mem _ (List.mem_cons_self _ _)
    · exact List.mem_cons_of_mem _ (List.mem_cons_of_mem _ h)

theorem not_lt_foldl_earlier :
    ∀ (es : List SimEvent) (e x : SimEvent), x ∈ e :: es →
      ¬ eventLT x (es.foldl earlier e)
  | [], e, x, hx => by
    rcases List.mem_cons.mp hx with rfl | hx
    · exact eventLT_irrefl x
    · exact absurd hx (List.not_mem_nil x)
  | b :: bs, e, x, hx => by
    show ¬ eventLT x (bs.foldl earlier (earlier e b))
    have IH := not_lt_foldl_earlier bs (earlier e b)
    by_cases hbe : eventLT b e
    · have he : earlier e b = b := if_pos hbe
      rw [he] at IH ⊢
      rcases List.mem_cons.mp hx with hxe | hx
      · rw [hxe]
        intro hlt
        exact IH b (List.mem_cons_self _ _) (eventLT_trans hbe hlt)
      · exact IH x hx
    · have he : earlier e b = e := if_neg hbe
      rw [he] at IH ⊢
      rcases List.mem_cons.mp hx with hxe | hx
      · rw [hxe]
        exact IH e (List.mem_cons_self _ _)
      · rcases List.mem_cons.mp hx with hxb | hx
        · rw [hxb]
          exact eventLT_neg_neg hbe (IH e (List.mem_cons_self _ _))
        · exact IH x (List.mem_cons_of_mem _ hx)

theorem popMin_spec (q : List SimEvent) (e : SimEvent)
    (rest : List SimEvent) (h : popMin q = some (e, rest)) :
    e ∈ q ∧ (∀ x ∈ q, ¬ eventLT x e) ∧
      rest = q.eraseP fun x => decide (x = e) := by
  match q with
  | [] => exact absurd h (by simp [popMin])
  | y :: ys =>
    unfold popMin at h
    injection h with h
    injection h with h1 h2
    subst h1
    exact ⟨foldl_earlier_mem ys y, fun x hx => not_lt_foldl_earlier ys y x hx,
      h2.symm⟩

theorem not_mem_eraseP_self {e : SimEvent} :
    ∀ (q : List SimEvent), q.Nodup → e ∉ q.eraseP fun x => decide (x = e)
  | [], _ => List.not_mem_nil e
  | y :: ys, hnd => by
    by_cases hy : y = e
    · subst hy
      rw [List.eraseP_cons_of_pos (p := fun x => decide (x = y)) (by simp)]
      exact (List.nodup_cons.mp hnd).1
    · rw [List.eraseP_cons_of_neg (p := fun x => decide (x = e)) (by simp [hy])]
      intro hmem
      rcases List.mem_cons.mp hmem with hey | hmem
      · exact hy hey.symm
      · exact not_mem_eraseP_self ys (List.nodup_cons.mp hnd).2 hmem

/-- C7: the event queue pops events in strictly increasing
`(time, priority, counter)` order: a popped event is minimal under the
`SimEvent.__lt__` comparison, and (given well-formed distinct
counters) strictly precedes every remaining event and the next popped
event in triple order; at equal times a priority-1 event (Submit or
TaskFinish) precedes a priority-2 SchedulerRun, and remaining ties are
decided by the counter. -/
theorem c7_event_queue_order :
    (∀ (q : List SimEvent) (e : SimEvent) (rest : List SimEvent),
      popMin q = some (e, rest) →
        (∀ x ∈ q, ¬ eventLT x e) ∧
        (q.Nodup → (∀ x ∈ q, ∀ y ∈ q, x ≠ y → x.counter ≠ y.counter) →
          (∀ x ∈ rest, tripleLT (tripleOf e) (tripleOf x)) ∧
          (∀ e2 rest2, popMin rest = some (e2, rest2) →
            tripleLT (tripleOf e) (tripleOf e2)))) ∧
    (∀ a b : SimEvent, a.time = b.time → a.priority = 1 → b.priority = 2 →
      eventLT a b) ∧
    (∀ a b : SimEvent, a.time = b.time → a.priority = b.priority →
      (eventLT a b ↔ a.counter < b.counter)) ∧
    (∀ a b : SimEvent, eventLT a b ↔ tripleLT (tripleOf a) (tripleOf b)) := by
  refine ⟨?_, ?_, ?_, eventLT_iff_tripleLT⟩
  · intro q e rest h
    obtain ⟨hmem, hmin, hrest⟩ := popMin_spec q e rest h
    refine ⟨hmin, fun hnd hctr => ?_⟩
    have hstep : ∀ x ∈ rest, tripleLT (tripleOf e) (tripleOf x) := by
      intro x hx
      have hxq : x ∈ q := (hrest ▸ List.eraseP_sublist q).mem hx
      have hxe : x ≠ e := by
        intro hxe
        exact not_mem_eraseP_self q hnd (hrest ▸ hxe ▸ hx)
      have hcne : x.counter ≠ e.counter := hctr x hxq e hmem hxe
      rcases eventLT_total_of_ne_counter hcne with hlt | hlt
      · exact absurd hlt (hmin x hxq)
      · exact (eventLT_iff_tripleLT e x).mp hlt
    refine ⟨hstep, fun e2 rest2 h2 => ?_⟩
    exact hstep e2 (popMin_spec rest e2 rest2 h2).1
  · intro a b ht hp1 hp2
    unfold eventLT
    rw [if_neg (by simp [ht]), if_pos (by simp [hp1, hp2])]
    simp [hp1, hp2]
  · intro a b ht hp
    unfold eventLT
    rw [if_neg (by simp [ht]), if_neg (by simp [hp])]

/-- Witness for C7: with a SchedulerRun (counter 0) and a Submit
(counter 1) both at time 0, the Submit pops first and strictly
precedes the SchedulerRun in triple order. -/
theorem c7_event_queue_order_witness :
    tripleLT (tripleOf exE7b) (tripleOf exE7a) ∧ eventLT exE7b exE7a := by
  have h := (c7_event_queue_order.1 [exE7a, exE7b] exE7b [exE7a]
    (by decide!)).2 (by decide) (by decide)
  exact ⟨h.1 exE7a (List.mem_cons_self _ _),
    c7_event_queue_order.2.1 exE7b exE7a rfl rfl rfl⟩

/-! ### The dominant-share computation (C8) -/

theorem listMax_finRange {D : Nat} (f : Fin D → ℚ) :
    listMax ((List.finRange D).map f) =
      if h : D = 0 then 0
      else Finset.univ.sup'
        (⟨⟨0, Nat.pos_of_ne_zero h⟩, Finset.mem_univ _⟩ : Finset.univ.Nonempty)
        f := by
  split_ifs with h
  · subst h; rfl
  · apply le_antisymm
    · have hne : (List.finRange D).map f ≠ [] := by
        simp only [ne_eq, List.map_eq_nil_iff]
        intro hfr
        exact h (by simpa using congrArg List.length hfr)
      obtain ⟨i, _, hi⟩ := List.mem_map.mp (listMax_mem _ hne)
      rw [← hi]
      exact Finset.le_sup' f (Finset.mem_univ i)
    · apply Finset.sup'_le
      intro i _
      exact le_listMax _ _ (List.mem_map_of_mem f (List.mem_finRange i))

/-- C8: the dominant-share computation returns the maximum component
of the elementwise quotient in which every zero-divisor component
(including 0/0) contributes 0, and returns 0 when the dimension is 0;
both the hypothetical computation of the scheduler and the
application's own share update realize this specification. -/
theorem c8_dominant_share_spec :
    (∀ (D : Nat) (st : SimState D) (U : V D),
      calc_s_i st U = domShareSpec U st.R_total) ∧
    (∀ (D : Nat) (a : Application D) (R : V D),
      (a.update_dominant_share R).s_i = domShareSpec a.U_i R) ∧
    (∀ (st : SimState 0) (U : V 0), calc_s_i st U = 0) := by
  refine ⟨fun D st U => ?_, fun D a R => ?_, fun st U => rfl⟩
  · show listMax _ = domShareSpec U st.R_total
    unfold domShareSpec
    exact listMax_finRange _
  · show listMax _ = domShareSpec a.U_i R
    unfold domShareSpec
    exact listMax_finRange _

/-! ### The stale-finish bug (C1) -/

/-- C1: a finish event of a task that was preempted after the event
was enqueued is NOT always ignored.  Preemption leaves the task in the
global map, so when the task has been re-placed on the same node the
stale event finds it and finishes it 9 time units early: the handler
changes the state, removing the task from the global map, the node and
the application. -/
theorem c1_stale_finish_not_ignored :
    Dict.contains exC1St.all_tasks 7 = true ∧
    exT7.status = TaskStatus.RUNNING ∧
    (16 : ℚ) < exT7.start_time + exT7.duration ∧
    handle_task_finish_event exC1St 7 2 1 ≠ some exC1St ∧
    (handle_task_finish_event exC1St 7 2 1).map
      (fun s => (Dict.contains s.all_tasks 7,
        s.nodes.map fun n => n.running_tasks.length)) = some (false, [0]) := by
  decide!

/-! ### First-fit node selection and the round structure (C5) -/

theorem find?_sorted_min {α : Type} {r : α → α → Prop} (p : α → Bool) :
    ∀ l : List α, List.Sorted r l → ∀ a, l.find? p = some a →
      a ∈ l ∧ p a = true ∧ ∀ b ∈ l, p b = true → r a b ∨ a = b
  | x :: xs, hs, a, h => by
    by_cases hpx : p x
    · rw [List.find?_cons_of_pos _ hpx] at h
      injection h with h; subst h
      refine ⟨List.mem_cons_self _ _, hpx, fun b hb _ => ?_⟩
      rcases List.mem_cons.mp hb with hbx | hb
      · exact Or.inr hbx.symm
      · exact Or.inl ((List.sorted_cons.mp hs).1 b hb)
    · rw [List.find?_cons_of_neg _ hpx] at h
      obtain ⟨hmem, hpa, hmin⟩ :=
        find?_sorted_min p xs (List.sorted_cons.mp hs).2 a h
      refine ⟨List.mem_cons_of_mem _ hmem, hpa, fun b hb hpb => ?_⟩
      rcases List.mem_cons.mp hb with hbx | hb
      · exact absurd (hbx ▸ hpb) hpx
      · exact hmin b hb hpb

theorem find_best_node_spec {D : Nat} (st : SimState D) (R : V D)
    (n : Node D) (h : find_best_node st R = some n) :
    n ∈ st.nodes ∧ n.can_fit R ∧
      ∀ m ∈ st.nodes, m.can_fit R → n.id ≤ m.id := by
  unfold find_best_node at h
  obtain ⟨hmem, hp, hmin⟩ := find?_sorted_min _ _
    (List.sorted_insertionSort nodeIdLE st.nodes) n h
  have hperm := List.perm_insertionSort nodeIdLE st.nodes
  refine ⟨hperm.mem_iff.mp hmem, of_decide_eq_true hp, fun m hm hfit => ?_⟩
  rcases hmin m (hperm.mem_iff.mpr hm) (decide_eq_true hfit) with hr | he
  · exact hr
  · exact he ▸ le_refl _

theorem find_best_node_none {D : Nat} (st : SimState D) (R : V D)
    (h : find_best_node st R = none) :
    ∀ m ∈ st.nodes, ¬ m.can_fit R := by
  unfold find_best_node at h
  intro m hm hfit
  have := List.find?_eq_none.mp h m
    ((List.perm_insertionSort nodeIdLE st.nodes).mem_iff.mpr hm)
  exact this (decide_eq_true hfit)

theorem visitApps_direct {D : Nat} (st : SimState D) :
    ∀ (l : List (Application D)) (a : Application D) (t : Task D)
      (n : Node D) (st' : SimState D),
      visitApps st l = .direct a t n st' →
        a ∈ l ∧ a.pending_tasks.head? = some t ∧
        find_best_node st t.requirements = some n ∧
        placeTask st a t n = some st'
  | [], a, t, n, st', h => by
    simp only [visitApps] at h
    exact RoundOutcome.noConfusion h
  | app :: rest, a, t, n, st', h => by
    rw [visitApps] at h
    split at h
    · obtain ⟨hm, h2, h3, h4⟩ := visitApps_direct st rest a t n st' h
      exact ⟨List.mem_cons_of_mem _ hm, h2, h3, h4⟩
    · next t0 ptail heq =>
      split at h
      · next n0 hfb =>
        split at h
        · next s0 hpl =>
          injection h with h1 h2 h3 h4
          subst h1; subst h2; subst h3; subst h4
          exact ⟨List.mem_cons_self _ _, by rw [heq]; rfl, hfb, hpl⟩
        · exact RoundOutcome.noConfusion h
      · next hfb =>
        split at h
        · next vs nd hfp =>
          split at h
          · obtain ⟨hm, h2, h3, h4⟩ := visitApps_direct st rest a t n st' h
            exact ⟨List.mem_cons_of_mem _ hm, h2, h3, h4⟩
          · split at h
            · exact RoundOutcome.noConfusion h
            · exact RoundOutcome.noConfusion h
        · obtain ⟨hm, h2, h3, h4⟩ := visitApps_direct st rest a t n st' h
          exact ⟨List.mem_cons_of_mem _ hm, h2, h3, h4⟩

theorem visitApps_preempt {D : Nat} (st : SimState D) :
    ∀ (l : List (Application D)) (a : Application D) (t : Task D)
      (vs : List (Task D)) (n : Node D) (st' : SimState D),
      visitApps st l = .preempt a t vs n st' →
        a ∈ l ∧ a.pending_tasks.head? = some t ∧
        find_best_node st t.requirements = none ∧
        find_preemption_candidate st a t = some (vs, n) ∧
        vs ≠ [] ∧ applyPreemption st a t vs n = some st'
  | [], a, t, vs, n, st', h => by
    simp only [visitApps] at h
    exact RoundOutcome.noConfusion h
  | app :: rest, a, t, vs, n, st', h => by
    rw [visitApps] at h
    split at h
    · obtain ⟨hm, h2, h3, h4, h5, h6⟩ := visitApps_preempt st rest a t vs n st' h
      exact ⟨List.mem_cons_of_mem _ hm, h2, h3, h4, h5, h6⟩
    · next t0 ptail heq =>
      split at h
      · next n0 hfb =>
        split at h
        · exact RoundOutcome.noConfusion h
        · exact RoundOutcome.noConfusion h
      · next hfb =>
        split at h
        · next vs0 nd hfp =>
          split at h
          · obtain ⟨hm, h2, h3, h4, h5, h6⟩ :=
              visitApps_preempt st rest a t vs n st' h
            exact ⟨List.mem_cons_of_mem _ hm, h2, h3, h4, h5, h6⟩
          · next hvs =>
            split at h
            · next s0 hap =>
              injection h with h1 h2 h3 h4 h5
              subst h1; subst h2; subst h3; subst h4; subst h5
              exact ⟨List.mem_cons_self _ _, by rw [heq]; rfl, hfb, hfp,
                fun hnil => hvs (by rw [hnil]; rfl), hap⟩
            · exact RoundOutcome.noConfusion h
        · obtain ⟨hm, h2, h3, h4, h5, h6⟩ :=
            visitApps_preempt st rest a t vs n st' h
          exact ⟨List.mem_cons_of_mem _ hm, h2, h3, h4, h5, h6⟩

/-- C5: in a scheduling round, each visited application's head pending
task is placed directly on the node of smallest id among all nodes
that fit it whenever such a node exists, and the preemption evaluator
is consulted for that task only when no node fits it (a preemption
outcome implies no node fits). -/
theorem c5_direct_first_fit {D : Nat} (st : SimState D)
    (l : List (Application D)) :
    (∀ (a : Application D) (t : Task D) (n : Node D) (st' : SimState D),
      visitApps st l = .direct a t n st' →
        a.pending_tasks.head? = some t ∧ n ∈ st.nodes ∧
        n.can_fit t.requirements ∧
        ∀ m ∈ st.nodes, m.can_fit t.requirements → n.id ≤ m.id) ∧
    (∀ (a : Application D) (t : Task D) (vs : List (Task D)) (n : Node D)
      (st' : SimState D),
      visitApps st l = .preempt a t vs n st' →
        a.pending_tasks.head? = some t ∧
        ∀ m ∈ st.nodes, ¬ m.can_fit t.requirements) := by
  constructor
  · intro a t n st' h
    obtain ⟨_, hh, hfb, _⟩ := visitApps_direct st l a t n st' h
    obtain ⟨hm, hfit, hmin⟩ := find_best_node_spec st t.requirements n hfb
    exact ⟨hh, hm, hfit, hmin⟩
  · intro a t vs n st' h
    obtain ⟨_, hh, hfb, _, _, _⟩ := visitApps_preempt st l a t vs n st' h
    exact ⟨hh, find_best_node_none st t.requirements hfb⟩

/-- Witness for C5: on a concrete direct placement the chosen node
fits and has least id, and on the concrete preemption round of the
counterexample state no node fits the winner task. -/
theorem c5_direct_first_fit_witness :
    exDirNode.can_fit exD1.requirements ∧
    (∀ m ∈ exDirSt.nodes, m.can_fit exD1.requirements →
      exDirNode.id ≤ m.id) ∧
    (∀ m ∈ exC2St.nodes, ¬ m.can_fit exTW.requirements) := by
  have h1 := (c5_direct_first_fit exDirSt [exDirApp]).1 exDirApp exD1
    exDirNode exDirSt' (by decide!)
  have h2 := (c5_direct_first_fit exC2St [exW]).2 exW exTW [exV1, exV2]
    exN1 exC2StAfter1 (by decide!)
  exact ⟨h1.2.2.1, h1.2.2.2, h2.2⟩

/-! ### Effect lemmas for placement and preemption -/

theorem placeTask_spec {D : Nat} (st : SimState D) (a : Application D)
    (t : Task D) (n : Node D) (st' : SimState D)
    (h : placeTask st a t n = some st') :
    ∃ (node' : Node D) (app2 : Application D),
      node'.id = n.id ∧ (∀ i, node'.C_k i = n.C_k i + t.requirements i) ∧
      app2.id = a.id ∧ app2.pending_tasks = a.pending_tasks.tail ∧
      (∀ i, app2.U_i i = a.U_i i + t.requirements i) ∧
      st'.apps = replaceFirst (fun b => b.id == a.id) app2 st.apps ∧
      st'.nodes = replaceFirst (fun m => m.id == n.id) node' st.nodes := by
  simp only [placeTask] at h
  split at h
  · exact Option.noConfusion h
  · next node' hadd =>
    injection h with h
    subst h
    unfold Node.add_task at hadd
    split at hadd
    · injection hadd with hadd
      subst hadd
      refine ⟨?_, ?_, ?_⟩
      · exact { n with
                C_k := V.add n.C_k t.requirements,
                running_tasks := n.running_tasks.insert t.id
                  { t with
                    status := TaskStatus.RUNNING,
                    start_time := st.current_time,
                    node_id := (n.id : Int) } }
      · exact Application.update_dominant_share
          { a with
            pending_tasks := a.pending_tasks.tail,
            running_tasks := a.running_tasks.insert t.id
              { t with
                status := TaskStatus.RUNNING,
                start_time := st.current_time,
                node_id := (n.id : Int) },
            U_i := V.add a.U_i t.requirements } st.R_total
      · exact ⟨rfl, fun i => rfl, rfl, rfl, fun i => rfl, rfl, rfl⟩
    · exact Option.noConfusion hadd

theorem preemptLoop_spec {D : Nat} :
    ∀ (ts : List (Task D)) (node : Node D) (vapp : Application D)
      (allt : Dict (Task D)) (freed : V D) (node' : Node D)
      (vapp' : Application D) (allt' : Dict (Task D)) (freed' : V D),
      preemptLoop ts node vapp allt freed = some (node', vapp', allt', freed') →
        node'.id = node.id ∧ node'.R_k = node.R_k ∧
        (∀ i, node'.C_k i = node.C_k i - (ts.map fun u => u.requirements i).sum) ∧
        vapp'.id = vapp.id ∧ vapp'.U_i = vapp.U_i ∧
        (∀ i, freed' i = freed i + (ts.map fun u => u.requirements i).sum) ∧
        vapp'.pending_tasks.length = ts.length + vapp.pending_tasks.length
  | [], node, vapp, allt, freed, node', vapp', allt', freed', h => by
    injection h with h
    injection h with h1 h
    injection h with h2 h
    injection h with h3 h4
    subst h1; subst h2; subst h4
    exact ⟨rfl, rfl, fun i => by simp, rfl, rfl, fun i => by simp, by simp⟩
  | u :: ts, node, vapp, allt, freed, node', vapp', allt', freed', h => by
    rw [preemptLoop] at h
    split at h
    · exact Option.noConfusion h
    · next node1 hrem =>
      split at h
      · next hin =>
        obtain ⟨h1, h2, h3, h4, h5, h6, h7⟩ :=
          preemptLoop_spec ts node1 _ _ _ node' vapp' allt' freed' h
        unfold Node.remove_task at hrem
        split at hrem
        · injection hrem with hrem
          subst hrem
          refine ⟨h1, h2, fun i => ?_, h4, h5, fun i => ?_, ?_⟩
          · rw [h3 i]
            show node.C_k i - u.requirements i - _ = _
            simp only [List.map_cons, List.sum_cons]
            ring
          · rw [h6 i]
            show freed i + u.requirements i + _ = _
            simp only [List.map_cons, List.sum_cons]
            ring
          · rw [h7]
            simp only [List.length_cons]
            omega
        · exact Option.noConfusion hrem
      · exact Option.noConfusion h

theorem applyPreemption_spec {D : Nat} (st : SimState D)
    (w : Application D) (t : Task D) (vs : List (Task D)) (n : Node D)
    (st' : SimState D) (h : applyPreemption st w t vs n = some st') :
    ∃ (v0 : Task D) (vrest : List (Task D)) (vapp vapp2 winner2 : Application D)
      (node'' : Node D),
      vs = v0 :: vrest ∧
      st.findApp? v0.app_id = some vapp ∧
      vapp2.id = vapp.id ∧
      (∀ i, vapp2.U_i i = vapp.U_i i - sumReqAt vs i) ∧
      node''.id = n.id ∧
      (∀ i, node''.C_k i = n.C_k i - sumReqAt vs i + t.requirements i) ∧
      winner2.id = w.id ∧ winner2.pending_tasks = w.pending_tasks.tail ∧
      (∀ i, winner2.U_i i = w.U_i i + t.requirements i) ∧
      st'.apps = replaceFirst (fun b => b.id == w.id) winner2
        (replaceFirst (fun b => b.id == vapp.id) vapp2 st.apps) ∧
      st'.nodes = replaceFirst (fun m => m.id == n.id) node'' st.nodes := by
  simp only [applyPreemption] at h
  split at h
  · exact Option.noConfusion h
  · next v0 vtail =>
    split at h
    · exact Option.noConfusion h
    · next vapp hfind =>
      split at h
      · exact Option.noConfusion h
      · next node1 vapp1 allt1 freed hloop =>
        split at h
        · exact Option.noConfusion h
        · next node2 hadd =>
          injection h with h
          subst h
          obtain ⟨hid1, _, hC1, hid4, hU4, hfr, _⟩ :=
            preemptLoop_spec (v0 :: vtail) n vapp st.all_tasks V.zero
              node1 vapp1 allt1 freed hloop
          unfold Node.add_task at hadd
          split at hadd
          · injection hadd with hadd
            subst hadd
            refine ⟨v0, vtail, vapp, ?_, ?_, ?_, ?_⟩
            · exact Application.update_dominant_share
                { vapp1 with U_i := V.sub vapp1.U_i freed } st.R_total
            · exact Application.update_dominant_share
                { w with
                  pending_tasks := w.pending_tasks.tail,
                  U_i := V.add w.U_i t.requirements,
                  running_tasks := w.running_tasks.insert t.id
                    { t with
                      status := TaskStatus.RUNNING,
                      start_time := st.current_time,
                      node_id := (n.id : Int) } } st.R_total
            · exact { node1 with
                      C_k := V.add node1.C_k t.requirements,
                      running_tasks := node1.running_tasks.insert t.id
                        { t with
                          status := TaskStatus.RUNNING,
                          start_time := st.current_time,
                          node_id := (n.id : Int) } }
            · refine ⟨rfl, hfind, hid4, fun i => ?_, hid1, fun i => ?_,
                rfl, rfl, fun i => rfl, rfl, rfl⟩
              · show vapp1.U_i i - freed i = _
                rw [hU4, hfr i]
                show vapp.U_i i - (0 + _) = vapp.U_i i - sumReqAt (v0 :: vtail) i
                unfold sumReqAt
                ring
              · show node1.C_k i + t.requirements i = _
                rw [hC1 i]
                unfold sumReqAt
                ring
          · exact Option.noConfusion hadd

theorem placeTask_ids {D : Nat} (st : SimState D) (a : Application D)
    (t : Task D) (n : Node D) (st' : SimState D)
    (h : placeTask st a t n = some st') :
    st'.apps.map Application.id = st.apps.map Application.id ∧
    st'.nodes.map Node.id = st.nodes.map Node.id := by
  obtain ⟨node', app2, hni, _, hai, _, _, happs, hnodes⟩ :=
    placeTask_spec st a t n st' h
  constructor
  · rw [happs]
    exact map_replaceFirst_congr _ _ _
      (fun b hb => by rw [eq_of_beq hb, hai]) st.apps
  · rw [hnodes]
    exact map_replaceFirst_congr _ _ _
      (fun m hm => by rw [eq_of_beq hm, hni]) st.nodes

theorem placeTask_totalPending {D : Nat} (st : SimState D)
    (a : Application D) (t : Task D) (n : Node D) (st' : SimState D)
    (hnd : (st.apps.map Application.id).Nodup) (hmem : a ∈ st.apps)
    (hh : a.pending_tasks.head? = some t)
    (h : placeTask st a t n = some st') :
    st'.totalPending + 1 = st.totalPending := by
  obtain ⟨node', app2, _, _, hai, hpend, _, happs, _⟩ :=
    placeTask_spec st a t n st' h
  have hfind : st.apps.find? (fun b => b.id == a.id) = some a :=
    find?_of_nodup_keys Application.id st.apps a hnd hmem
  have hsum := sum_map_replaceFirst (fun b => b.id == a.id) app2
    (fun b => b.pending_tasks.length) st.apps a hfind
  simp only at hsum
  unfold SimState.totalPending
  rw [happs]
  rw [hpend] at hsum
  cases hp : a.pending_tasks with
  | nil => rw [hp] at hh; exact Option.noConfusion hh
  | cons t0 tl =>
    rw [hp] at hsum
    simp only [List.length_cons, List.tail_cons] at hsum
    omega

theorem scheduleRound_direct {D : Nat} (st : SimState D)
    (a : Application D) (t : Task D) (n : Node D) (st' : SimState D)
    (h : scheduleRound st = .direct a t n st') :
    a ∈ st.apps ∧ a.pending_tasks.head? = some t ∧
    find_best_node st t.requirements = some n ∧
    placeTask st a t n = some st' := by
  simp only [scheduleRound] at h
  split at h
  · exact RoundOutcome.noConfusion h
  · obtain ⟨hm, h2, h3, h4⟩ := visitApps_direct st _ a t n st' h
    have hm2 := (List.perm_insertionSort appShareLE _).mem_iff.mp hm
    exact ⟨(List.mem_filter.mp hm2).1, h2, h3, h4⟩

theorem scheduleRound_preempt_facts {D : Nat} (st : SimState D)
    (a : Application D) (t : Task D) (vs : List (Task D)) (n : Node D)
    (st' : SimState D) (h : scheduleRound st = .preempt a t vs n st') :
    vs ≠ [] ∧ a ∈ st.apps ∧ a.pending_tasks.head? = some t ∧
    find_preemption_candidate st a t = some (vs, n) ∧
    applyPreemption st a t vs n = some st' := by
  simp only [scheduleRound] at h
  split at h
  · exact RoundOutcome.noConfusion h
  · obtain ⟨hm, h2, _, h4, h5, h6⟩ := visitApps_preempt st _ a t vs n st' h
    have hm2 := (List.perm_insertionSort appShareLE _).mem_iff.mp hm
    exact ⟨h5, (List.mem_filter.mp hm2).1, h2, h4, h6⟩

/-! ### The scheduling-cycle round bound (C2) -/

/-- C2 counterexample: a cycle started with exactly one pending task
executes three allocation rounds (one preemption of two victims, then
two direct re-placements of the victims), exceeding the claimed bound
of one round per initially pending task. -/
theorem c2_counterexample_rounds_exceed_pending :
    exC2St.totalPending = 1 ∧
    (run_scheduler_cycle 10 exC2St).map
      (fun r => (r.rounds, r.victims, r.completed)) = some (3, 2, true) ∧
    ¬ (3 ≤ 1) := by
  decide!

/-- C2 amended: each direct round consumes exactly one pending task,
so a cycle that performs no preemption completes within fuel
pending + 1 and executes at most pending allocation rounds; a
preemption round re-adds its victims to the pending lists, which is
what breaks the original bound. -/
theorem c2_amended_round_bound :
    ∀ (D fuel : Nat) (st : SimState D) (r : CycleResult D),
      (st.apps.map Application.id).Nodup →
      run_scheduler_cycle fuel st = some r →
      r.victims = 0 → st.totalPending + 1 ≤ fuel →
      r.completed = true ∧ r.rounds ≤ st.totalPending := by
  intro D fuel
  induction fuel with
  | zero => intro st r _ _ _ hf; omega
  | succ f IH =>
    intro st r hnd h hv hf
    rw [run_scheduler_cycle] at h
    split at h
    · injection h with h; subst h; exact ⟨rfl, Nat.zero_le _⟩
    · injection h with h; subst h; exact ⟨rfl, Nat.zero_le _⟩
    · next a t n st2 hrd =>
      obtain ⟨r2, hrun, hr⟩ := Option.map_eq_some'.mp h
      obtain ⟨hmem, hhead, _, hplace⟩ := scheduleRound_direct st a t n st2 hrd
      have hids := placeTask_ids st a t n st2 hplace
      have htp := placeTask_totalPending st a t n st2 hnd hmem hhead hplace
      have hv2 : r2.victims = 0 := by rw [← hr] at hv; exact hv
      have hIH := IH st2 r2 (hids.1 ▸ hnd) hrun hv2 (by omega)
      rw [← hr]
      refine ⟨hIH.1, ?_⟩
      show r2.rounds + 1 ≤ st.totalPending
      have h2 := hIH.2
      omega
    · next a t vs n st2 hrd =>
      obtain ⟨r2, hrun, hr⟩ := Option.map_eq_some'.mp h
      have hvs := (scheduleRound_preempt_facts st a t vs n st2 hrd).1
      rw [← hr] at hv
      have hv2 : r2.victims + vs.length = 0 := hv
      have hl : vs.length ≠ 0 := fun h0 => hvs (List.length_eq_zero.mp h0)
      omega
    · exact Option.noConfusion h

/-- Witness for the amended C2: the concrete preemption-free state
with two pending tasks completes its cycle in two rounds. -/
theorem c2_amended_round_bound_witness :
    exDirCycle.completed = true ∧
    exDirCycle.rounds ≤ exDirSt.totalPending :=
  c2_amended_round_bound 2 3 exDirSt exDirCycle (by decide)
    (by decide!) (by decide!) (by decide!)

/-! ### The preemption evaluator (C3, C4, C10) -/

theorem foldl_pickMax_mem {D : Nat} :
    ∀ (rest : List (Application D)) (a : Application D),
      rest.foldl (fun b x => if b.s_i < x.s_i then x else b) a ∈ a :: rest
  | [], a => List.mem_cons_self a []
  | b :: bs, a => by
    show bs.foldl _ (if a.s_i < b.s_i then b else a) ∈ a :: b :: bs
    have h := foldl_pickMax_mem bs (if a.s_i < b.s_i then b else a)
    rcases List.mem_cons.mp h with h | h
    · rw [h]
      split_ifs
      · exact List.mem_cons_of_mem _ (List.mem_cons_self _ _)
      · exact List.mem_cons_self _ _
    · exact List.mem_cons_of_mem _ (List.mem_cons_of_mem _ h)

theorem le_foldl_pickMax {D : Nat} :
    ∀ (rest : List (Application D)) (a x : Application D), x ∈ a :: rest →
      x.s_i ≤ (rest.foldl (fun b x => if b.s_i < x.s_i then x else b) a).s_i
  | [], a, x, hx => by
    rcases List.mem_cons.mp hx with h | h
    · rw [h]; exact le_refl _
    · exact absurd h (List.not_mem_nil x)
  | b :: bs, a, x, hx => by
    show x.s_i ≤ (bs.foldl _ (if a.s_i < b.s_i then b else a)).s_i
    have hstep : ∀ y : Application D, y.s_i ≤ (if a.s_i < b.s_i then b else a).s_i →
        x.s_i ≤ y.s_i → x.s_i ≤ (bs.foldl
          (fun b x => if b.s_i < x.s_i then x else b)
          (if a.s_i < b.s_i then b else a)).s_i := fun y h1 h2 =>
      le_trans (le_trans h2 h1)
        (le_foldl_pickMax bs _ _ (List.mem_cons_self _ _))
    rcases List.mem_cons.mp hx with h | hx2
    · refine hstep x ?_ (le_refl _)
      rw [h]
      split_ifs with hs
      · exact le_of_lt hs
      · exact le_refl _
    · rcases List.mem_cons.mp hx2 with h | hx3
      · refine hstep x ?_ (le_refl _)
        rw [h]
        split_ifs with hs
        · exact le_refl _
        · exact le_of_not_lt hs
      · exact le_foldl_pickMax bs _ x (List.mem_cons_of_mem _ hx3)

theorem victimSelect_spec {D : Nat} (st : SimState D) (P : Application D)
    (h : victimSelect st = some P) :
    P ∈ st.apps ∧ ¬ P.running_tasks.isEmpty ∧
      ∀ a ∈ st.apps, ¬ a.running_tasks.isEmpty → a.s_i ≤ P.s_i := by
  unfold victimSelect at h
  split at h
  · exact Option.noConfusion h
  · next a rest heq =>
    injection h with h
    subst h
    have hmemf : (rest.foldl (fun b x => if b.s_i < x.s_i then x else b) a) ∈
        st.apps.filter fun b => ¬ b.running_tasks.isEmpty := by
      rw [heq]
      exact foldl_pickMax_mem rest a
    obtain ⟨hmem, hprop⟩ := List.mem_filter.mp hmemf
    refine ⟨hmem, of_decide_eq_true hprop, fun b hb hrun => ?_⟩
    have hbf : b ∈ st.apps.filter fun c => ¬ c.running_tasks.isEmpty :=
      List.mem_filter.mpr ⟨hb, decide_eq_true hrun⟩
    rw [heq] at hbf
    exact le_foldl_pickMax rest a b hbf

theorem greedyVictims_spec {D : Nat} (node : Node D) (DW : V D) :
    ∀ (l : List (ℚ × Task D)) (tau tau' : List (Task D)) (freed freed' : V D)
      (cost cost' : ℚ),
      greedyVictims node DW l tau freed cost = some (tau', freed', cost') →
      ∃ m, 1 ≤ m ∧ m ≤ l.length ∧
        tau' = tau ++ (l.take m).map Prod.snd ∧
        (∀ i, freed' i = freed i +
          ((l.take m).map fun p => p.2.requirements i).sum) ∧
        cost' = cost + ((l.take m).map Prod.fst).sum ∧
        V.le (V.add (V.sub node.C_k freed') DW) node.R_k ∧
        (∀ j, 1 ≤ j → j < m →
          ¬ V.le (V.add (V.sub node.C_k (fun i => freed i +
            ((l.take j).map fun p => p.2.requirements i).sum)) DW) node.R_k)
  | [], tau, tau', freed, freed', cost, cost', h => Option.noConfusion h
  | (c0, t0) :: rest, tau, tau', freed, freed', cost, cost', h => by
    rw [greedyVictims] at h
    split at h
    · next hfit =>
      injection h with h
      injection h with h1 h
      injection h with h2 h3
      subst h1; subst h2; subst h3
      refine ⟨1, le_refl _, by simp, by simp, fun i => by simp [V.add_apply], by simp, ?_, ?_⟩
      · exact hfit
      · intro j hj1 hj2; omega
    · next hfit =>
      obtain ⟨m, hm1, hm2, hτ, hfr, hc, hle, hmin⟩ :=
        greedyVictims_spec node DW rest (tau ++ [t0]) tau'
          (V.add freed t0.requirements) freed' (cost + c0) cost' h
      refine ⟨m + 1, by omega, by simp; omega, ?_, ?_, ?_, hle, ?_⟩
      · rw [hτ, List.take_succ_cons, List.map_cons]
        simp
      · intro i
        rw [hfr i, List.take_succ_cons, List.map_cons, List.sum_cons,
          V.add_apply]
        ring
      · rw [hc, List.take_succ_cons, List.map_cons, List.sum_cons]
        ring
      · intro j hj1 hj2
        match j, hj1 with
        | 1, _ =>
          intro hcon
          apply hfit
          have he : (fun i => freed i +
              ((((c0, t0) :: rest).take 1).map fun p => p.2.requirements i).sum) =
              V.add freed t0.requirements :=
            funext fun i => by simp [V.add_apply]
          rw [he] at hcon
          exact hcon
        | j' + 2, _ =>
          intro hcon
          apply hmin (j' + 1) (by omega) (by omega)
          have he : (fun i => freed i +
              ((((c0, t0) :: rest).take (j' + 2)).map
                fun p => p.2.requirements i).sum) =
              (fun i => V.add freed t0.requirements i +
                ((rest.take (j' + 1)).map fun p => p.2.requirements i).sum) :=
            funext fun i => by
              rw [List.take_succ_cons, List.map_cons, List.sum_cons, V.add_apply]
              ring
          rw [he] at hcon
          exact hcon

theorem sortedVictims_sorted {D : Nat} (st : SimState D)
    (P : Application D) (n : Node D) :
    List.Sorted costLE (sortedVictims st P n) :=
  List.sorted_insertionSort costLE _

theorem sortedVictims_perm {D : Nat} (st : SimState D) (P : Application D)
    (n : Node D) :
    (sortedVictims st P n).Perm
      ((n.running_tasks.values.filter fun t => t.app_id == P.id).map
        fun t => (taskCost st t, t)) :=
  List.perm_insertionSort costLE _

theorem sortedVictims_mem {D : Nat} (st : SimState D) (P : Application D)
    (n : Node D) (p : ℚ × Task D) (hp : p ∈ sortedVictims st P n) :
    p.1 = taskCost st p.2 ∧ p.2.app_id = P.id := by
  have hm := (sortedVictims_perm st P n).mem_iff.mp hp
  obtain ⟨t, ht, hpt⟩ := List.mem_map.mp hm
  obtain ⟨_, hfil⟩ := List.mem_filter.mp ht
  rw [← hpt]
  exact ⟨rfl, eq_of_beq hfil⟩

theorem nodeCandidate_spec {D : Nat} (st : SimState D)
    (P W : Application D) (DW : V D) (n : Node D) (c : ℚ)
    (τ : List (Task D)) (h : nodeCandidate st P W DW n = some (c, τ)) :
    ∃ freed : V D,
      greedyVictims n DW (sortedVictims st P n) [] V.zero 0 =
        some (τ, freed, c) ∧
      calc_s_i st (V.sub P.U_i freed) > calc_s_i st (V.add W.U_i DW) ∧
      P.s_i - calc_s_i st (V.sub P.U_i freed) > st.EPSILON ∧
      (P.s_i - calc_s_i st (V.sub P.U_i freed)) * st.ALPHA >
        c * st.BETA := by
  simp only [nodeCandidate] at h
  split at h
  · exact Option.noConfusion h
  · split at h
    · exact Option.noConfusion h
    · next τ0 freed0 c0 hgreedy =>
      split at h
      · exact Option.noConfusion h
      · next hhier =>
        split at h
        · exact Option.noConfusion h
        · next hgain =>
          split at h
          · next hecon =>
            injection h with h
            injection h with h1 h2
            subst h1; subst h2
            exact ⟨freed0, hgreedy, not_not.mp hhier, not_not.mp hgain, hecon⟩
          · exact Option.noConfusion h

theorem foldl_best_spec {D : Nat} (st : SimState D) (P W : Application D)
    (T : Task D) :
    ∀ (ns : List (Node D)) (acc : Option (ℚ × List (Task D) × Node D))
      (c : ℚ) (τ : List (Task D)) (nd : Node D),
      ns.foldl (bestStep st P W T.requirements) acc = some (c, τ, nd) →
      (acc = some (c, τ, nd) ∨
        (nd ∈ ns ∧ nodeCandidate st P W T.requirements nd = some (c, τ))) ∧
      (∀ n' ∈ ns, ∀ c' τ',
        nodeCandidate st P W T.requirements n' = some (c', τ') → c ≤ c') ∧
      (∀ c0 τ0 n0, acc = some (c0, τ0, n0) → c ≤ c0)
  | [], acc, c, τ, nd, h => by
    refine ⟨Or.inl h, fun n' hn' => absurd hn' (List.not_mem_nil n'), ?_⟩
    intro c0 τ0 n0 hacc
    rw [hacc] at h
    injection h with h
    injection h with h1 h2
    rw [h1]
  | nhead :: ns, acc, c, τ, nd, h => by
    simp only [List.foldl_cons] at h
    cases hcand : nodeCandidate st P W T.requirements nhead with
    | none =>
      rw [show bestStep st P W T.requirements acc nhead = acc from by
        simp [bestStep, hcand]] at h
      obtain ⟨h1, h2, h3⟩ := foldl_best_spec st P W T ns acc c τ nd h
      refine ⟨?_, fun n' hn' c' τ' hc' => ?_, h3⟩
      · rcases h1 with h1 | ⟨hm, hc⟩
        · exact Or.inl h1
        · exact Or.inr ⟨List.mem_cons_of_mem _ hm, hc⟩
      · rcases List.mem_cons.mp hn' with he | hn2
        · rw [he] at hc'
          rw [hcand] at hc'
          exact Option.noConfusion hc'
        · exact h2 n' hn2 c' τ' hc'
    | some pr =>
      rcases pr with ⟨c1, τ1⟩
      cases acc with
      | none =>
        rw [show bestStep st P W T.requirements none nhead =
            some (c1, τ1, nhead) from by simp [bestStep, hcand]] at h
        obtain ⟨h1, h2, h3⟩ :=
          foldl_best_spec st P W T ns (some (c1, τ1, nhead)) c τ nd h
        have hcle : c ≤ c1 := h3 c1 τ1 nhead rfl
        refine ⟨?_, fun n' hn' c' τ' hc' => ?_,
          fun c0 τ0 n0 hacc => Option.noConfusion hacc⟩
        · rcases h1 with h1 | ⟨hm, hcnd⟩
          · injection h1 with h1
            injection h1 with ha hb
            injection hb with hb hc2
            subst ha; subst hb; subst hc2
            exact Or.inr ⟨List.mem_cons_self _ _, hcand⟩
          · exact Or.inr ⟨List.mem_cons_of_mem _ hm, hcnd⟩
        · rcases List.mem_cons.mp hn' with he | hn2
          · rw [he, hcand] at hc'
            injection hc' with hc'
            injection hc' with hca hcb
            rw [← hca]
            exact hcle
          · exact h2 n' hn2 c' τ' hc'
      | some prev =>
        rw [show bestStep st P W T.requirements (some prev) nhead =
            if c1 < prev.1 then some (c1, τ1, nhead) else some prev from by
          simp [bestStep, hcand]] at h
        by_cases hlt : c1 < prev.1
        · rw [if_pos hlt] at h
          obtain ⟨h1, h2, h3⟩ :=
            foldl_best_spec st P W T ns (some (c1, τ1, nhead)) c τ nd h
          have hcle : c ≤ c1 := h3 c1 τ1 nhead rfl
          refine ⟨?_, fun n' hn' c' τ' hc' => ?_,
            fun c0 τ0 n0 hacc => ?_⟩
          · rcases h1 with h1 | ⟨hm, hcnd⟩
            · injection h1 with h1
              injection h1 with ha hb
              injection hb with hb hc2
              subst ha; subst hb; subst hc2
              exact Or.inr ⟨List.mem_cons_self _ _, hcand⟩
            · exact Or.inr ⟨List.mem_cons_of_mem _ hm, hcnd⟩
          · rcases List.mem_cons.mp hn' with he | hn2
            · rw [he, hcand] at hc'
              injection hc' with hc'
              injection hc' with hca hcb
              rw [← hca]
              exact hcle
            · exact h2 n' hn2 c' τ' hc'
          · injection hacc with hacc
            have : prev.1 = c0 := by rw [hacc]
            rw [← this]
            exact le_trans hcle (le_of_lt hlt)
        · rw [if_neg hlt] at h
          obtain ⟨h1, h2, h3⟩ := foldl_best_spec st P W T ns (some prev) c τ nd h
          have hcle : c ≤ prev.1 := h3 prev.1 prev.2.1 prev.2.2 rfl
          refine ⟨?_, fun n' hn' c' τ' hc' => ?_,
            fun c0 τ0 n0 hacc => ?_⟩
          · rcases h1 with h1 | ⟨hm, hcnd⟩
            · exact Or.inl h1
            · exact Or.inr ⟨List.mem_cons_of_mem _ hm, hcnd⟩
          · rcases List.mem_cons.mp hn' with he | hn2
            · rw [he, hcand] at hc'
              injection hc' with hc'
              injection hc' with hca hcb
              rw [← hca]
              exact le_trans hcle (le_of_not_lt hlt)
            · exact h2 n' hn2 c' τ' hc'
          · injection hacc with hacc
            have : prev.1 = c0 := by rw [hacc]
            rw [← this]
            exact hcle

theorem find_preemption_spec {D : Nat} (st : SimState D)
    (W : Application D) (T : Task D) (vs : List (Task D)) (n : Node D)
    (h : find_preemption_candidate st W T = some (vs, n)) :
    ∃ (P : Application D) (c : ℚ) (m : Nat),
      victimSelect st = some P ∧ P ∈ st.apps ∧ ¬ P.running_tasks.isEmpty ∧
      (∀ a ∈ st.apps, ¬ a.running_tasks.isEmpty → a.s_i ≤ P.s_i) ∧
      P.s_i > W.s_i ∧ n ∈ st.nodes ∧
      nodeCandidate st P W T.requirements n = some (c, vs) ∧
      (∀ u ∈ vs, u.app_id = P.id) ∧
      c = (vs.map (taskCost st)).sum ∧
      1 ≤ m ∧ m ≤ (sortedVictims st P n).length ∧
      vs = ((sortedVictims st P n).take m).map Prod.snd ∧
      fitsAfterRemoving n vs T.requirements ∧
      (∀ j, 1 ≤ j → j < m →
        ¬ fitsAfterRemoving n (((sortedVictims st P n).take j).map Prod.snd)
          T.requirements) ∧
      calc_s_i st (V.sub P.U_i (sumReqAt vs)) >
        calc_s_i st (V.add W.U_i T.requirements) ∧
      P.s_i - calc_s_i st (V.sub P.U_i (sumReqAt vs)) > st.EPSILON ∧
      (P.s_i - calc_s_i st (V.sub P.U_i (sumReqAt vs))) * st.ALPHA >
        c * st.BETA ∧
      (∀ n' ∈ st.nodes, ∀ c' vs',
        nodeCandidate st P W T.requirements n' = some (c', vs') → c ≤ c') := by
  simp only [find_preemption_candidate] at h
  split at h
  · exact Option.noConfusion h
  · next P heqv =>
    split at h
    · next hgt =>
      split at h
      · next c0 τ0 nd0 heqb =>
        injection h with h
        injection h with h1 h2
        rw [h1, h2] at heqb
        obtain ⟨hb1, hb2, _⟩ :=
          foldl_best_spec st P W T st.nodes none c0 vs n heqb
        rcases hb1 with hb1 | ⟨hmemn, hcand⟩
        · exact Option.noConfusion hb1
        obtain ⟨hmem, hrun, hmax⟩ := victimSelect_spec st P heqv
        obtain ⟨freed, hgreedy, hp1, hp2, hp3⟩ :=
          nodeCandidate_spec st P W T.requirements n c0 vs hcand
        obtain ⟨m, hm1, hm2, hτ, hfr, hc, hle, hmin⟩ :=
          greedyVictims_spec n T.requirements (sortedVictims st P n)
            [] vs V.zero freed 0 c0 hgreedy
        rw [List.nil_append] at hτ
        have hfe : freed = sumReqAt vs := by
          funext i
          rw [hfr i, hτ]
          simp only [sumReqAt, List.map_map, V.zero_apply, zero_add]
          rfl
        have hvsid : ∀ u ∈ vs, u.app_id = P.id := by
          intro u hu
          rw [hτ] at hu
          obtain ⟨p, hp, hpu⟩ := List.mem_map.mp hu
          rw [← hpu]
          exact (sortedVictims_mem st P n p (List.take_subset m _ hp)).2
        have hcost : c0 = (vs.map (taskCost st)).sum := by
          rw [hc, hτ, List.map_map, zero_add]
          exact congrArg List.sum (List.map_congr_left fun p hp =>
            (sortedVictims_mem st P n p (List.take_subset m _ hp)).1)
        have hfit : fitsAfterRemoving n vs T.requirements := by
          show V.le _ _
          rw [← hfe]
          exact hle
        have hminfit : ∀ j, 1 ≤ j → j < m →
            ¬ fitsAfterRemoving n
              (((sortedVictims st P n).take j).map Prod.snd)
              T.requirements := by
          intro j hj1 hj2 hcon
          apply hmin j hj1 hj2
          have he : (fun i => V.zero i +
              (((sortedVictims st P n).take j).map
                fun p => p.2.requirements i).sum) =
              sumReqAt (((sortedVictims st P n).take j).map Prod.snd) := by
            funext i
            simp only [sumReqAt, List.map_map, V.zero_apply, zero_add]
            rfl
          rw [he]
          exact hcon
        rw [hfe] at hp1 hp2 hp3
        exact ⟨P, c0, m, heqv, hmem, hrun, hmax, hgt, hmemn, hcand, hvsid,
          hcost, hm1, hm2, hτ, hfit, hminfit, hp1, hp2, hp3,
          fun n' hn' c' vs' hc' => hb2 n' hn' c' vs' hc'⟩
      · exact Option.noConfusion h
    · exact Option.noConfusion h

/-- C3: whenever the preemption evaluator returns a victim set for a
winner, the victim application P attains the maximum dominant share
among applications with running tasks, s_P is strictly above the
winner's share, and the returned set satisfies the hierarchy
(s_P-prime above s_W-prime), gain (above epsilon) and economic
(gain times alpha above cost times beta) predicates. -/
theorem c3_preemption_predicates {D : Nat} (st : SimState D)
    (W : Application D) (T : Task D) (vs : List (Task D)) (n : Node D)
    (h : find_preemption_candidate st W T = some (vs, n)) :
    ∃ P : Application D, victimSelect st = some P ∧ P ∈ st.apps ∧
      ¬ P.running_tasks.isEmpty ∧
      (∀ a ∈ st.apps, ¬ a.running_tasks.isEmpty → a.s_i ≤ P.s_i) ∧
      P.s_i > W.s_i ∧
      calc_s_i st (V.sub P.U_i (sumReqAt vs)) >
        calc_s_i st (V.add W.U_i T.requirements) ∧
      P.s_i - calc_s_i st (V.sub P.U_i (sumReqAt vs)) > st.EPSILON ∧
      (P.s_i - calc_s_i st (V.sub P.U_i (sumReqAt vs))) * st.ALPHA >
        (vs.map (taskCost st)).sum * st.BETA := by
  obtain ⟨P, c, m, h1, h2, h3, h4, h5, _, _, _, hcost, _, _, _, _, _,
    hp1, hp2, hp3, _⟩ := find_preemption_spec st W T vs n h
  exact ⟨P, h1, h2, h3, h4, h5, hp1, hp2, hcost ▸ hp3⟩

/-- Witness for C3: the concrete preemption on the counterexample
state satisfies the three predicates and the victim-maximality
facts. -/
theorem c3_preemption_predicates_witness :
    calc_s_i exC2St (V.sub exP.U_i (sumReqAt [exV1, exV2])) >
      calc_s_i exC2St (V.add exW.U_i exTW.requirements) ∧
    exP.s_i - calc_s_i exC2St (V.sub exP.U_i (sumReqAt [exV1, exV2])) >
      exC2St.EPSILON ∧
    exP.s_i > exW.s_i := by
  obtain ⟨P, hvs, _, _, _, hgt, hp1, hp2, _⟩ :=
    c3_preemption_predicates exC2St exW exTW [exV1, exV2] exN1 (by decide!)
  have h0 : victimSelect exC2St = some exP := by decide!
  rw [hvs] at h0
  injection h0 with h0
  subst h0
  exact ⟨hp1, hp2, hgt⟩

/-- C4: whenever the preemption evaluator returns (victim set, node),
the set is the shortest nonempty prefix of the victim application's
tasks on that node in ascending wasted-work-cost order whose removal
makes the winner fit, the shorter-prefix bound extends to the empty
prefix whenever the node did not already fit the task, and the chosen
node's total cost is minimal among all nodes whose candidate passes
the hierarchy, gain and economic checks. -/
theorem c4_minimal_prefix_min_cost {D : Nat} (st : SimState D)
    (W : Application D) (T : Task D) (vs : List (Task D)) (n : Node D)
    (h : find_preemption_candidate st W T = some (vs, n)) :
    n ∈ st.nodes ∧
    ∃ (P : Application D) (c : ℚ) (m : Nat),
      victimSelect st = some P ∧
      nodeCandidate st P W T.requirements n = some (c, vs) ∧
      c = (vs.map (taskCost st)).sum ∧
      List.Sorted costLE (sortedVictims st P n) ∧
      (sortedVictims st P n).Perm
        ((n.running_tasks.values.filter fun t => t.app_id == P.id).map
          fun t => (taskCost st t, t)) ∧
      1 ≤ m ∧ m ≤ (sortedVictims st P n).length ∧
      vs = ((sortedVictims st P n).take m).map Prod.snd ∧
      fitsAfterRemoving n vs T.requirements ∧
      (∀ j, 1 ≤ j → j < m →
        ¬ fitsAfterRemoving n (((sortedVictims st P n).take j).map Prod.snd)
          T.requirements) ∧
      (¬ fitsAfterRemoving n [] T.requirements →
        ∀ j, j < m →
          ¬ fitsAfterRemoving n
            (((sortedVictims st P n).take j).map Prod.snd) T.requirements) ∧
      (∀ n' ∈ st.nodes, ∀ c' vs',
        nodeCandidate st P W T.requirements n' = some (c', vs') → c ≤ c') := by
  obtain ⟨P, c, m, h1, _, _, _, _, hmemn, hcand, _, hcost, hm1, hm2, hτ,
    hfit, hminfit, _, _, _, hbest⟩ := find_preemption_spec st W T vs n h
  refine ⟨hmemn, P, c, m, h1, hcand, hcost, sortedVictims_sorted st P n,
    sortedVictims_perm st P n, hm1, hm2, hτ, hfit, hminfit, ?_, hbest⟩
  intro h0 j hj
  match j with
  | 0 =>
    intro hcon
    apply h0
    simpa using hcon
  | j' + 1 => exact hminfit (j' + 1) (by omega) hj

/-- Witness for C4: on the counterexample state the single cheapest
victim does not free enough room, both victims do, and the victim set
is exactly the two-task prefix. -/
theorem c4_minimal_prefix_min_cost_witness :
    fitsAfterRemoving exN1 [exV1, exV2] exTW.requirements ∧
    ¬ fitsAfterRemoving exN1 [exV1] exTW.requirements := by
  obtain ⟨_, P, c, m, hvs, _, _, _, _, hm1, hm2, hτ, hfit, hminfit, _, _⟩ :=
    c4_minimal_prefix_min_cost exC2St exW exTW [exV1, exV2] exN1 (by decide!)
  have h0 : victimSelect exC2St = some exP := by decide!
  rw [hvs] at h0
  injection h0 with h0
  subst h0
  have hm : m = 2 := by
    have hlen := congrArg List.length hτ
    have hsv : (sortedVictims exC2St exP exN1).length = 2 := by decide!
    simp [hsv] at hlen
    omega
  subst hm
  have htake : ((sortedVictims exC2St exP exN1).take 1).map Prod.snd =
      [exV1] := by decide!
  have h1 := hminfit 1 (le_refl 1) (by omega)
  rw [htake] at h1
  exact ⟨hfit, h1⟩

/-- C10: whenever the preemption evaluator returns (victim set, node),
removing the victims from that node frees enough room that the winner
task fits, so after the eviction loop the add-task error branch (the
raise when a task does not fit) cannot be taken for the winner
task. -/
theorem c10_preemption_add_safe {D : Nat} (st : SimState D)
    (W : Application D) (T : Task D) (vs : List (Task D)) (n : Node D)
    (h : find_preemption_candidate st W T = some (vs, n)) :
    fitsAfterRemoving n vs T.requirements ∧
    ∀ (vapp : Application D) (allt : Dict (Task D)) (node' : Node D)
      (vapp' : Application D) (allt' : Dict (Task D)) (freed : V D),
      preemptLoop vs n vapp allt V.zero = some (node', vapp', allt', freed) →
      ∀ t' : Task D, t'.requirements = T.requirements →
        node'.add_task t' ≠ none := by
  obtain ⟨P, c, m, _, _, _, _, _, _, _, _, _, _, _, _, hfit, _⟩ :=
    find_preemption_spec st W T vs n h
  refine ⟨hfit, fun vapp allt node' vapp' allt' freed hloop t' hreq => ?_⟩
  obtain ⟨_, hR, hC, _, _, _, _⟩ :=
    preemptLoop_spec vs n vapp allt V.zero node' vapp' allt' freed hloop
  have hcan : node'.can_fit t'.requirements := by
    intro i
    show node'.C_k i + t'.requirements i ≤ node'.R_k i
    rw [hC i, hR, hreq]
    exact hfit i
  unfold Node.add_task
  rw [if_pos hcan]
  exact Option.noConfusion

/-- Witness for C10: on the counterexample state, adding the winner
task to node 1 after evicting both victims succeeds. -/
theorem c10_preemption_add_safe_witness :
    Node.add_task exLoopRes.1 exTW ≠ none :=
  (c10_preemption_add_safe exC2St exW exTW [exV1, exV2] exN1
    (by decide!)).2 exP exC2St.all_tasks exLoopRes.1 exLoopRes.2.1
    exLoopRes.2.2.1 exLoopRes.2.2.2 (by decide!) exTW rfl

/-! ### Conservation of resources (C6) -/

theorem conserve_initState {D : Nat} (nodeSpecs : List (Nat × V D))
    (appSpecs : List (Nat × V D × ℚ)) (schedule : List (ℚ × Nat × Nat))
    (alpha beta eps : ℚ) :
    conserve (initState nodeSpecs appSpecs schedule alpha beta eps) := by
  intro i
  show (((appSpecs.map fun p => mkApplication p.1 p.2.1 p.2.2).map
      fun a => a.U_i i)).sum =
    (((nodeSpecs.map fun p => mkNode p.1 p.2).map fun n => n.C_k i)).sum
  rw [List.map_map, List.map_map]
  rw [List.sum_eq_zero fun x hx => ?_, List.sum_eq_zero fun x hx => ?_]
  · obtain ⟨p, _, hp⟩ := List.mem_map.mp hx
    exact hp.symm.trans rfl
  · obtain ⟨p, _, hp⟩ := List.mem_map.mp hx
    exact hp.symm.trans rfl

theorem handle_submit_spec {D : Nat} (st st' : SimState D)
    (app_id num_tasks : Nat)
    (h : handle_submit_event st app_id num_tasks = some st') :
    ∃ app app2 : Application D,
      List.find? (fun a => a.id == app_id) st.apps = some app ∧
      app2.U_i = app.U_i ∧
      st'.apps = replaceFirst (fun b => b.id == app_id) app2 st.apps ∧
      st'.nodes = st.nodes := by
  simp only [handle_submit_event] at h
  split at h
  · exact Option.noConfusion h
  · next app hfind =>
    injection h with h
    subst h
    exact ⟨app,
      { app with
        pending_tasks := (submitLoop app_id app.proto_requirements
          app.proto_duration num_tasks st.task_id_counter
          app.pending_tasks st.all_tasks).2.1 },
      hfind, rfl, rfl, rfl⟩

theorem handle_submit_conserve {D : Nat} (st st' : SimState D)
    (app_id num_tasks : Nat) (hc : conserve st)
    (h : handle_submit_event st app_id num_tasks = some st') :
    conserve st' := by
  obtain ⟨app, app2, hfind, hU, happs, hnodes⟩ :=
    handle_submit_spec st st' app_id num_tasks h
  intro i
  unfold sumU sumC
  rw [happs, hnodes]
  have hsum := sum_map_replaceFirst (fun b => b.id == app_id) app2
    (fun b => b.U_i i) st.apps app hfind
  have hc2 := hc i
  unfold sumU sumC at hc2
  simp only at hsum
  rw [hU] at hsum
  linarith

theorem handle_task_finish_spec {D : Nat} (st st' : SimState D)
    (task_id app_id node_id : Nat)
    (h : handle_task_finish_event st task_id app_id node_id = some st') :
    st' = st ∨
    ∃ (task : Task D) (node node2 : Node D) (app app2 : Application D),
      List.find? (fun m => m.id == node_id) st.nodes = some node ∧
      List.find? (fun a => a.id == app_id) st.apps = some app ∧
      (∀ i, node2.C_k i = node.C_k i - task.requirements i) ∧
      (∀ i, app2.U_i i = app.U_i i - task.requirements i) ∧
      st'.apps = replaceFirst (fun b => b.id == app_id) app2 st.apps ∧
      st'.nodes = replaceFirst (fun m => m.id == node_id) node2 st.nodes := by
  unfold handle_task_finish_event at h
  split at h
  · injection h with h; subst h; exact Or.inl rfl
  · next task htask =>
    split at h
    · exact Option.noConfusion h
    · exact Option.noConfusion h
    · next node app hnode happ =>
      split at h
      · injection h with h; subst h; exact Or.inl rfl
      · next node' hrem =>
        split at h
        · injection h with h
          subst h
          unfold Node.remove_task at hrem
          split at hrem
          · injection hrem with hrem
            subst hrem
            refine Or.inr ⟨task, node,
              { node with
                C_k := V.sub node.C_k task.requirements,
                running_tasks := node.running_tasks.erase task.id },
              app,
              Application.update_dominant_share
                { app with
                  U_i := V.sub app.U_i task.requirements,
                  running_tasks := app.running_tasks.erase task_id }
                st.R_total,
              hnode, happ, fun i => rfl, fun i => rfl, rfl, rfl⟩
          · exact Option.noConfusion hrem
        · exact Option.noConfusion h

theorem handle_task_finish_conserve {D : Nat} (st st' : SimState D)
    (task_id app_id node_id : Nat) (hc : conserve st)
    (h : handle_task_finish_event st task_id app_id node_id = some st') :
    conserve st' := by
  rcases handle_task_finish_spec st st' task_id app_id node_id h with
    heq | ⟨task, node, node2, app, app2, hnode, happ, hC, hU, happs, hnodes⟩
  · subst heq; exact hc
  · intro i
    unfold sumU sumC
    rw [happs, hnodes]
    have hsumA := sum_map_replaceFirst (fun b => b.id == app_id) app2
      (fun b => b.U_i i) st.apps app happ
    have hsumN := sum_map_replaceFirst (fun m => m.id == node_id) node2
      (fun m => m.C_k i) st.nodes node hnode
    have hc2 := hc i
    unfold sumU sumC at hc2
    simp only at hsumA hsumN
    rw [hC i] at hsumN
    rw [hU i] at hsumA
    linarith

theorem applyPreemption_ids {D : Nat} (st : SimState D) (w : Application D)
    (t : Task D) (vs : List (Task D)) (n : Node D) (st' : SimState D)
    (h : applyPreemption st w t vs n = some st') :
    st'.apps.map Application.id = st.apps.map Application.id ∧
    st'.nodes.map Node.id = st.nodes.map Node.id := by
  obtain ⟨v0, vrest, vapp, vapp2, winner2, node'', hvs, hfind, hid2, _, hidn,
    _, hidw, _, _, happs, hnodes⟩ := applyPreemption_spec st w t vs n st' h
  refine ⟨?_, ?_⟩
  · rw [happs]
    rw [map_replaceFirst_congr _ _ _
      (fun b hb => by rw [eq_of_beq hb, hidw]) _]
    exact map_replaceFirst_congr _ _ _
      (fun b hb => by rw [eq_of_beq hb, hid2]) _
  · rw [hnodes]
    exact map_replaceFirst_congr _ _ _
      (fun m hm => by rw [eq_of_beq hm, hidn]) _

theorem placeTask_conserve {D : Nat} (st : SimState D) (a : Application D)
    (t : Task D) (n : Node D) (st' : SimState D)
    (hnda : (st.apps.map Application.id).Nodup)
    (hndn : (st.nodes.map Node.id).Nodup)
    (hma : a ∈ st.apps) (hmn : n ∈ st.nodes)
    (hc : conserve st) (h : placeTask st a t n = some st') :
    conserve st' := by
  obtain ⟨node', app2, hni, hCk, hai, _, hUi, happs, hnodes⟩ :=
    placeTask_spec st a t n st' h
  intro i
  unfold sumU sumC
  rw [happs, hnodes]
  have hsumA := sum_map_replaceFirst (fun b => b.id == a.id) app2
    (fun b => b.U_i i) st.apps a
    (find?_of_nodup_keys Application.id st.apps a hnda hma)
  have hsumN := sum_map_replaceFirst (fun m => m.id == n.id) node'
    (fun m => m.C_k i) st.nodes n
    (find?_of_nodup_keys Node.id st.nodes n hndn hmn)
  have hc2 := hc i
  unfold sumU sumC at hc2
  simp only at hsumA hsumN
  rw [hUi i] at hsumA
  rw [hCk i] at hsumN
  linarith

theorem applyPreemption_conserve {D : Nat} (st : SimState D)
    (w : Application D) (t : Task D) (vs : List (Task D)) (n : Node D)
    (st' : SimState D)
    (hnda : (st.apps.map Application.id).Nodup)
    (hndn : (st.nodes.map Node.id).Nodup)
    (hmw : w ∈ st.apps) (hmn : n ∈ st.nodes)
    (hvne : ∀ v0 ∈ vs, ∀ vapp : Application D,
      st.findApp? v0.app_id = some vapp → vapp.id ≠ w.id)
    (hc : conserve st) (h : applyPreemption st w t vs n = some st') :
    conserve st' := by
  obtain ⟨v0, vrest, vapp, vapp2, winner2, node'', hvs, hfind, hid2, hU2,
    hidn, hCn, hidw, _, hUw, happs, hnodes⟩ :=
    applyPreemption_spec st w t vs n st' h
  have hv0 : v0 ∈ vs := by rw [hvs]; exact List.mem_cons_self _ _
  have hne : vapp.id ≠ w.id := hvne v0 hv0 vapp hfind
  have hfind0 : List.find? (fun a => a.id == v0.app_id) st.apps = some vapp :=
    hfind
  have hbeq0 := List.find?_some hfind0
  simp only [beq_iff_eq] at hbeq0
  have hveq : vapp.id = v0.app_id := hbeq0
  have hfind1 : List.find? (fun b => b.id == vapp.id) st.apps = some vapp := by
    rw [show (fun b : Application D => b.id == vapp.id) =
      (fun b => b.id == v0.app_id) from funext fun b => by rw [hveq]]
    exact hfind
  have hfw : List.find? (fun b => b.id == w.id)
      (replaceFirst (fun b => b.id == vapp.id) vapp2 st.apps) = some w := by
    rw [find?_replaceFirst_of_disjoint _ _ _
      (fun b hb => by rw [eq_of_beq hb]; exact beq_eq_false_iff_ne.mpr hne)
      (by rw [hid2]; exact beq_eq_false_iff_ne.mpr hne) st.apps]
    exact find?_of_nodup_keys Application.id st.apps w hnda hmw
  intro i
  unfold sumU sumC
  rw [happs, hnodes]
  have hsumInner := sum_map_replaceFirst (fun b => b.id == vapp.id) vapp2
    (fun b => b.U_i i) st.apps vapp hfind1
  have hsumOuter := sum_map_replaceFirst (fun b => b.id == w.id) winner2
    (fun b => b.U_i i)
    (replaceFirst (fun b => b.id == vapp.id) vapp2 st.apps) w hfw
  have hsumN := sum_map_replaceFirst (fun m => m.id == n.id) node''
    (fun m => m.C_k i) st.nodes n
    (find?_of_nodup_keys Node.id st.nodes n hndn hmn)
  have hc2 := hc i
  unfold sumU sumC at hc2
  simp only at hsumInner hsumOuter hsumN
  rw [hU2 i] at hsumInner
  rw [hUw i] at hsumOuter
  rw [hCn i] at hsumN
  linarith

theorem scheduleRound_conserve_ids {D : Nat} (st : SimState D)
    (hnda : (st.apps.map Application.id).Nodup)
    (hndn : (st.nodes.map Node.id).Nodup) (hc : conserve st) :
    (∀ (a : Application D) (t : Task D) (n : Node D) (st' : SimState D),
      scheduleRound st = .direct a t n st' →
      conserve st' ∧
      st'.apps.map Application.id = st.apps.map Application.id ∧
      st'.nodes.map Node.id = st.nodes.map Node.id) ∧
    (∀ (a : Application D) (t : Task D) (vs : List (Task D)) (n : Node D)
      (st' : SimState D),
      scheduleRound st = .preempt a t vs n st' →
      conserve st' ∧
      st'.apps.map Application.id = st.apps.map Application.id ∧
      st'.nodes.map Node.id = st.nodes.map Node.id) := by
  constructor
  · intro a t n st' h
    obtain ⟨hma, _, hfb, hplace⟩ := scheduleRound_direct st a t n st' h
    have hmn := (find_best_node_spec st t.requirements n hfb).1
    exact ⟨placeTask_conserve st a t n st' hnda hndn hma hmn hc hplace,
      (placeTask_ids st a t n st' hplace).1,
      (placeTask_ids st a t n st' hplace).2⟩
  · intro a t vs n st' h
    obtain ⟨_, hma, _, hcand, hap⟩ :=
      scheduleRound_preempt_facts st a t vs n st' h
    obtain ⟨P, c, m, _, hmemP, _, _, hgt, hmn, _, hvsid, _⟩ :=
      find_preemption_spec st a t vs n hcand
    have hvne : ∀ v0 ∈ vs, ∀ vapp : Application D,
        st.findApp? v0.app_id = some vapp → vapp.id ≠ a.id := by
      intro v0 hv0 vapp hv hwid
      have hvP : st.findApp? v0.app_id = some P := by
        show List.find? (fun b => b.id == v0.app_id) st.apps = some P
        rw [show (fun b : Application D => b.id == v0.app_id) =
          (fun b => b.id == P.id) from funext fun b => by
            rw [hvsid v0 hv0]]
        exact find?_of_nodup_keys Application.id st.apps P hnda hmemP
      rw [hv] at hvP
      injection hvP with hvP
      subst hvP
      have : vapp = a := mem_of_eq_of_nodup_keys Application.id st.apps
        vapp a hnda hmemP hma hwid
      rw [this] at hgt
      exact lt_irrefl _ hgt
    exact ⟨applyPreemption_conserve st a t vs n st' hnda hndn hma hmn hvne
        hc hap,
      (applyPreemption_ids st a t vs n st' hap).1,
      (applyPreemption_ids st a t vs n st' hap).2⟩

theorem run_scheduler_cycle_conserve :
    ∀ (D fuel : Nat) (st : SimState D) (r : CycleResult D),
      (st.apps.map Application.id).Nodup →
      (st.nodes.map Node.id).Nodup →
      conserve st → run_scheduler_cycle fuel st = some r →
      conserve r.state := by
  intro D fuel
  induction fuel with
  | zero =>
    intro st r _ _ hc h
    rw [run_scheduler_cycle] at h
    injection h with h
    subst h
    exact hc
  | succ f IH =>
    intro st r hnda hndn hc h
    rw [run_scheduler_cycle] at h
    split at h
    · injection h with h; subst h; exact hc
    · injection h with h; subst h; exact hc
    · next a t n st2 hrd =>
      obtain ⟨r2, hrun, hr⟩ := Option.map_eq_some'.mp h
      obtain ⟨hc2, hida, hidn⟩ :=
        (scheduleRound_conserve_ids st hnda hndn hc).1 a t n st2 hrd
      have hres := IH st2 r2 (hida ▸ hnda) (hidn ▸ hndn) hc2 hrun
      rw [← hr]
      exact hres
    · next a t vs n st2 hrd =>
      obtain ⟨r2, hrun, hr⟩ := Option.map_eq_some'.mp h
      obtain ⟨hc2, hida, hidn⟩ :=
        (scheduleRound_conserve_ids st hnda hndn hc).2 a t vs n st2 hrd
      have hres := IH st2 r2 (hida ▸ hnda) (hidn ▸ hndn) hc2 hrun
      rw [← hr]
      exact hres
    · exact Option.noConfusion h

theorem trigger_conserve {D : Nat} (st : SimState D) (am : Bool)
    (hc : conserve st) : conserve (trigger_scheduler_run st am) := by
  unfold trigger_scheduler_run
  split_ifs
  · exact hc
  · exact fun i => hc i

theorem dispatch_conserve {D : Nat} (fuel : Nat) (st : SimState D)
    (e : SimEvent) (st2 : SimState D)
    (hnda : (st.apps.map Application.id).Nodup)
    (hndn : (st.nodes.map Node.id).Nodup)
    (hc : conserve st) (h : dispatch fuel st e = some st2) :
    conserve st2 := by
  unfold dispatch at h
  split at h
  · exact handle_submit_conserve st st2 _ _ hc h
  · exact handle_task_finish_conserve st st2 _ _ _ hc h
  · obtain ⟨r, hrun, hr⟩ := Option.map_eq_some'.mp h
    rw [← hr]
    exact run_scheduler_cycle_conserve D fuel st r hnda hndn hc hrun

theorem stepWith_conserve {D : Nat} (fuel : Nat) (st : SimState D)
    (e : SimEvent) (st' : SimState D)
    (hnda : (st.apps.map Application.id).Nodup)
    (hndn : (st.nodes.map Node.id).Nodup)
    (hc : conserve st) (h : stepWith fuel st e = some st') :
    conserve st' := by
  simp only [stepWith] at h
  split at h
  · exact Option.noConfusion h
  · next st2 hdisp =>
    have hc2 : conserve st2 := by
      refine dispatch_conserve fuel _ e st2 ?_ ?_ ?_ hdisp
      · exact hnda
      · exact hndn
      · exact fun i => hc i
    split at h
    · injection h with h; subst h; exact hc2
    · split at h
      · injection h with h; subst h; exact hc2
      · injection h with h; subst h; exact trigger_conserve st2 false hc2

/-- C6: the componentwise sum of application usages equals the
componentwise sum of node usages: it holds in the initial state built
by the constructor, and it is preserved by every successful event-loop
step (submission, task finish, and scheduler cycles with their direct
placements and preemptions). -/
theorem c6_conservation :
    (∀ (D : Nat) (nodeSpecs : List (Nat × V D))
      (appSpecs : List (Nat × V D × ℚ)) (schedule : List (ℚ × Nat × Nat))
      (alpha beta eps : ℚ),
      conserve (initState nodeSpecs appSpecs schedule alpha beta eps)) ∧
    (∀ (D fuel : Nat) (st : SimState D) (e : SimEvent) (st' : SimState D),
      (st.apps.map Application.id).Nodup →
      (st.nodes.map Node.id).Nodup →
      conserve st → stepWith fuel st e = some st' → conserve st') :=
  ⟨fun D ns as sc a b c => conserve_initState ns as sc a b c,
    fun D fuel st e st' hnda hndn hc h =>
      stepWith_conserve fuel st e st' hnda hndn hc h⟩

/-- Witness for C6: conservation holds after the concrete submit step
of the one-event state. -/
theorem c6_conservation_witness : conserve exC9T :=
  c6_conservation.2 2 4 exC9St exEvt exC9T (by decide) (by decide)
    (by decide!) (by decide!)

/-! ### Determinism of the event loop (C9) -/

theorem Steps_nil_inv {D : Nat} {fuel : Nat} {s t : SimState D}
    (h : Steps fuel s [] t) : t = s := by
  cases h; rfl

theorem Steps_cons_inv {D : Nat} {fuel : Nat} {s u : SimState D}
    {e : SimEvent} {es : List SimEvent} (h : Steps fuel s (e :: es) u) :
    ∃ m, StepRel fuel s e m ∧ Steps fuel m es u := by
  cases h with
  | cons hs hsteps => exact ⟨_, hs, hsteps⟩

/-- C9: the simulation is deterministic.  A step of the event loop
processes an event that is strictly least under the total
`(time, priority, counter)` order, and any two step sequences of equal
length from the same state dispatch the same events in the same order
and arrive at the same state (hence the same allocations, preemptions,
shares, node usages and clock). -/
theorem c9_determinism :
    ∀ (D fuel : Nat) (s : SimState D) (es es' : List SimEvent)
      (t t' : SimState D),
      Steps fuel s es t → Steps fuel s es' t' → es.length = es'.length →
      es = es' ∧ t = t' := by
  intro D fuel s es
  revert s
  induction es with
  | nil =>
    intro s es' t t' h h' hl
    have he : es' = [] := List.length_eq_zero.mp (by simpa using hl.symm)
    subst he
    rw [Steps_nil_inv h, Steps_nil_inv h']
    exact ⟨rfl, rfl⟩
  | cons e es IH =>
    intro s es' t t' h h' hl
    cases es' with
    | nil => exact absurd hl (by simp)
    | cons e1 es1 =>
      obtain ⟨m, ⟨hmem, hmin, hstep⟩, hrest⟩ := Steps_cons_inv h
      obtain ⟨m', ⟨hmem', hmin', hstep'⟩, hrest'⟩ := Steps_cons_inv h'
      have he : e = e1 := by
        by_contra hne
        exact eventLT_asymm (hmin e1 hmem' (fun hh => hne hh.symm))
          (hmin' e hmem (fun hh => hne hh))
      subst he
      have hm : m = m' := by
        rw [hstep] at hstep'
        injection hstep'
      subst hm
      obtain ⟨h1, h2⟩ := IH m es1 t t' hrest hrest' (by simpa using hl)
      exact ⟨by rw [h1], h2⟩

/-- Witness for C9: the one-event state steps uniquely to its
successor, and two runs of it agree. -/
theorem c9_determinism_witness :
    [exEvt] = [exEvt] ∧ exC9T = exC9T := by
  have hstep : StepRel 4 exC9St exEvt exC9T :=
    ⟨by decide, by decide, by decide!⟩
  exact c9_determinism 2 4 exC9St [exEvt] [exEvt] exC9T exC9T
    (Steps.cons hstep (Steps.nil _)) (Steps.cons hstep (Steps.nil _)) rfl

end DRF
